import Mathlib

/-!
FrankenPHP request context, worker options and extension workers.

A shallow embedding of `context.go`, `options.go` and `workerextension.go`: the per-request
context with its `closeContext` / `reject` / `validate` lifecycle, `clientHasClosed` and
`NewRequestWithContext`; the options of the package with `WithWorkers` and
`WithExtensionWorkers`; and `SendMessage`. Initialization (`Init`) is declared outside these
files and is modelled from the spec.

Conventions of the embedding.
* Go strings are Lean strings (valid UTF-8); a byte test such as "contains a NUL byte" is a
  test on characters, which is the same thing on valid UTF-8.
* Go `int` values are unbounded `Int`; where the width matters (`strconv.Atoi`) it is the
  explicit parameter `intSize`.
* A Go panic is the `.error` side of `Except String`, carrying the panic text.
* The response sink is recorded as the list of calls made on it.
* A function that takes a pointer and returns an error is a function from the value before
  to the value afterwards and the error returned (`none` is nil).
* Declarations made outside these files (`PrepareEnv`, `splitCgiPath`, `handleRequest`,
  the package logger, the rejection errors) are parameters.
* A slice of worker options is its header (array, length, capacity) with the arrays held in
  an explicit memory, so that `append` in place and shared arrays are visible.
* A channel operation either completes at once or waits (`Attempt`).
-/

namespace FrankenPHP

/-! ## Errors -/

/-- The error type `ErrRejected`: a message and an HTTP status code. -/
structure ErrRejected where
  message : String
  status : Int
deriving DecidableEq, Repr

/-- Non-nil Go `error` values, as far as this package builds them: an `ErrRejected` value,
a plain error (`errors.New`, or `fmt.Errorf` without `%w`), or the wrapper built by
`fmt.Errorf` with one `%w` verb, which keeps its own text and the wrapped error. -/
inductive GoError where
  | rejected (re : ErrRejected)
  | errorString (s : String)
  | wrapError (msg : String) (err : GoError)
deriving DecidableEq, Repr

/-- The method `Error()`. -/
def GoError.Error : GoError → String
  | .rejected re => re.message
  | .errorString s => s
  | .wrapError msg _ => msg

/-- The call `errors.As(err, &ErrRejected{})`: the first `ErrRejected` on the unwrap chain. -/
def errorsAs : GoError → Option ErrRejected
  | .rejected re => some re
  | .errorString _ => none
  | .wrapError _ err => errorsAs err

/-! ## Standard library pieces used by `validate` -/

/-- The string holding the single byte NUL. -/
def NUL : String := String.singleton (Char.ofNat 0)

/-- Substring search on character lists (`strings.Contains`). -/
def containsChars : List Char → List Char → Bool
  | [], sub => sub.isEmpty
  | c :: cs, sub => sub.isPrefixOf (c :: cs) || containsChars cs sub

/-- The function `strings.Contains`. -/
def stringsContains (s substr : String) : Bool := containsChars s.data substr.data

/-- The two kinds of `strconv.NumError`. -/
inductive NumErrorKind where
  | invalidSyntax
  | outOfRange
deriving DecidableEq, Repr

/-- Value of a decimal digit, `none` for any other character. -/
def digitVal (c : Char) : Option Nat :=
  if 48 ≤ c.toNat ∧ c.toNat ≤ 57 then some (c.toNat - 48) else none

/-- The digit loop of `strconv.ParseUint` in base 10: a character that is not a digit is a
syntax error, and an accumulator that would exceed `maxVal` is a range error. -/
def parseUintLoop (maxVal : Nat) : Nat → List Char → Except NumErrorKind Nat
  | n, [] => .ok n
  | n, c :: cs =>
    match digitVal c with
    | none => .error .invalidSyntax
    | some d =>
      if n * 10 + d > maxVal then .error .outOfRange
      else parseUintLoop maxVal (n * 10 + d) cs

/-- The function `strconv.Atoi` for an `int` of `intSize` bits: an optional sign, at least
one decimal digit, and a value between `-2^(intSize-1)` and `2^(intSize-1) - 1`. -/
def Atoi (intSize : Nat) (s : String) : Except NumErrorKind Int :=
  match s.data with
  | [] => .error .invalidSyntax
  | c :: cs =>
    let neg : Bool := c = Char.ofNat 45
    let body : List Char := if c = Char.ofNat 43 ∨ c = Char.ofNat 45 then cs else c :: cs
    match body with
    | [] => .error .invalidSyntax
    | b :: bs =>
      match parseUintLoop (2 ^ intSize - 1) 0 (b :: bs) with
      | .error k => .error k
      | .ok un =>
        let cutoff : Nat := 2 ^ (intSize - 1)
        if neg = false ∧ un ≥ cutoff then .error .outOfRange
        else if neg = true ∧ un > cutoff then .error .outOfRange
        else .ok (if neg then -(un : Int) else (un : Int))

/-- The table `lowerhex`. -/
def lowerhex (n : Nat) : Char := "0123456789abcdef".data.getD (n % 16) (Char.ofNat 48)

/-- The function `strconv.IsPrint`: explicit on Latin-1, and the Unicode tables
(`printTable`) beyond it. -/
def IsPrint (printTable : Nat → Bool) (r : Nat) : Bool :=
  if r ≤ 0xFF then
    (0x20 ≤ r && r ≤ 0x7E) || (0xA1 ≤ r && r ≤ 0xFF && r != 0xAD)
  else printTable r

/-- One rune of `strconv.Quote` (`appendEscapedRune` with the double quote). -/
def appendEscapedRune (printTable : Nat → Bool) (r : Char) : List Char :=
  let bs := Char.ofNat 92
  if r = Char.ofNat 34 ∨ r = bs then [bs, r]
  else if IsPrint printTable r.toNat then [r]
  else
    match r.toNat with
    | 7 => [bs, Char.ofNat 97]
    | 8 => [bs, Char.ofNat 98]
    | 12 => [bs, Char.ofNat 102]
    | 10 => [bs, Char.ofNat 110]
    | 13 => [bs, Char.ofNat 114]
    | 9 => [bs, Char.ofNat 116]
    | 11 => [bs, Char.ofNat 118]
    | n =>
      if n < 0x20 ∨ n = 0x7F then
        [bs, Char.ofNat 120, lowerhex (n / 16), lowerhex n]
      else if n < 0x10000 then
        [bs, Char.ofNat 117, lowerhex (n / 4096), lowerhex (n / 256), lowerhex (n / 16),
          lowerhex n]
      else
        [bs, Char.ofNat 85, lowerhex (n / 268435456), lowerhex (n / 16777216),
          lowerhex (n / 1048576), lowerhex (n / 65536), lowerhex (n / 4096),
          lowerhex (n / 256), lowerhex (n / 16), lowerhex n]

/-- The function `strconv.Quote`, which the verb `%q` applies to a string. -/
def Quote (printTable : Nat → Bool) (s : String) : String :=
  ⟨Char.ofNat 34 :: (s.data.flatMap (appendEscapedRune printTable) ++ [Char.ofNat 34])⟩

/-- The call `fmt.Errorf("%w: %q", err, s)`. -/
def fmtErrorf_w_q (printTable : Nat → Bool) (err : GoError) (s : String) : GoError :=
  .wrapError (err.Error ++ ": " ++ Quote printTable s) err

/-- Declarations that `context.go` uses and that are made elsewhere: the two rejection
errors of the package, the width of `int`, and the Unicode tables of `strconv`. -/
structure Env where
  ErrInvalidRequestPath : ErrRejected
  ErrInvalidContentLengthHeader : ErrRejected
  intSize : Nat
  printTable : Nat → Bool

/-! ## Requests and response sinks -/

/-- The type `http.Header`: canonical keys with their values. -/
abbrev Header := List (String × List String)

/-- The method `Header.Get`: the first value under the key, the empty string if none. -/
def Header.Get (h : Header) (key : String) : String :=
  match h.lookup key with
  | some (v :: _) => v
  | _ => ""

/-- State of a Go channel on which nothing is ever sent. -/
inductive Chan where
  | nilChan
  | openChan
  | closedChan
deriving DecidableEq, Repr

/-- The parts of `*http.Request` the context reads: the URL path, the headers, and the
channel that `r.Context().Done()` returns. That channel is nil for a context that can never
be cancelled, open until the context is cancelled, and closed from then on: the signal has
fired when the channel is closed. -/
structure Request where
  path : String
  header : Header
  ctxDone : Chan
deriving DecidableEq, Repr

/-- A call made on an `http.ResponseWriter`. -/
inductive SinkCall where
  | WriteHeader (status : Int)
  | Write (bytes : String)
  | Flush
deriving DecidableEq, Repr

/-- An `http.ResponseWriter`: whether its dynamic type also implements `http.Flusher`, and
the calls made on it so far, oldest first. -/
structure ResponseWriter where
  flusher : Bool
  calls : List SinkCall
deriving DecidableEq, Repr

/-- Record a call on the sink. -/
def ResponseWriter.call (rw : ResponseWriter) (c : SinkCall) : ResponseWriter :=
  { rw with calls := rw.calls ++ [c] }

/-! ## The context -/

/-- The builtin `close`: it panics on a nil channel and on a closed one. -/
def close : Chan → Except String Chan
  | .nilChan => .error "close of nil channel"
  | .openChan => .ok .closedChan
  | .closedChan => .error "close of closed channel"

/-- A value of type `any`. -/
inductive GoAny where
  | nilValue
  | str (s : String)
  | int (i : Int)
deriving DecidableEq, Repr

/-- The type `PreparedEnv`, a map from names to values. -/
abbrev PreparedEnv := List (String × String)

/-- The part of `worker` that `context.go` reads. -/
structure worker where
  fileName : String
deriving DecidableEq, Repr

/-- The struct `frankenPHPContext`. The logger is a reference, `startedAt` a clock reading. -/
structure frankenPHPContext where
  documentRoot : String
  splitPath : List String
  env : PreparedEnv
  logger : Option Nat
  request : Option Request
  originalRequest : Option Request
  worker : Option worker
  docURI : String
  pathInfo : String
  scriptName : String
  scriptFilename : String
  isDone : Bool
  responseWriter : Option ResponseWriter
  handlerParameters : GoAny
  handlerReturn : GoAny
  done : Chan
  startedAt : Nat
deriving DecidableEq, Repr

/-- The constructor `newFrankenPHPContext`, at clock reading `now`. -/
def newFrankenPHPContext (now : Nat) : frankenPHPContext :=
  { documentRoot := "", splitPath := [], env := [], logger := none, request := none,
    originalRequest := none, worker := none, docURI := "", pathInfo := "", scriptName := "",
    scriptFilename := "", isDone := false, responseWriter := none,
    handlerParameters := .nilValue, handlerReturn := .nilValue,
    done := .openChan, startedAt := now }

/-- The method `closeContext`. -/
def closeContext (fc : frankenPHPContext) : Except String frankenPHPContext :=
  if fc.isDone then .ok fc
  else
    match close fc.done with
    | .error p => .error p
    | .ok ch => .ok { fc with done := ch, isDone := true }

/-- What `reject` does to an attached sink: the status, the text of `err`, and a flush
when the sink is a flusher. -/
def writeRejection (rw : ResponseWriter) (re : ErrRejected) (err : GoError) : ResponseWriter :=
  let rw1 := (rw.call (.WriteHeader re.status)).call (.Write err.Error)
  if rw1.flusher then rw1.call .Flush else rw1

/-- The method `reject`. -/
def reject (fc : frankenPHPContext) (err : GoError) : Except String frankenPHPContext :=
  if fc.isDone then .ok fc
  else
    match errorsAs err with
    | none => .error "only instance of ErrRejected can be passed to reject"
    | some re =>
      match fc.responseWriter with
      | none => closeContext fc
      | some rw => closeContext { fc with responseWriter := some (writeRejection rw re err) }

/-- The statement pair `fc.reject(e); return e` of `validate`. -/
def rejectAndReturn (fc : frankenPHPContext) (e : GoError) :
    Except String (frankenPHPContext × Option GoError) :=
  match reject fc e with
  | .error p => .error p
  | .ok fc1 => .ok (fc1, some e)

/-- The method `validate`: the context afterwards and the error returned (`none` is nil).
A context without a request makes the first line dereference a nil pointer. -/
def validate (env : Env) (fc : frankenPHPContext) :
    Except String (frankenPHPContext × Option GoError) :=
  match fc.request with
  | none => .error "invalid memory address or nil pointer dereference"
  | some r =>
    if stringsContains r.path NUL then
      rejectAndReturn fc (.rejected env.ErrInvalidRequestPath)
    else
      let contentLengthStr := r.header.Get "Content-Length"
      if contentLengthStr ≠ "" then
        let e := fmtErrorf_w_q env.printTable (.rejected env.ErrInvalidContentLengthHeader)
          contentLengthStr
        match Atoi env.intSize contentLengthStr with
        | .error _ => rejectAndReturn fc e
        | .ok contentLength =>
          if contentLength < 0 then rejectAndReturn fc e else .ok (fc, none)
      else .ok (fc, none)

/-! ## Sequences of lifecycle calls -/

/-- One lifecycle call on a context. -/
inductive Call where
  | closeContext
  | reject (err : GoError)
  | validate
deriving DecidableEq, Repr

/-- Whether a call hands `reject` an error that classifies as rejected (true of the other
calls). -/
def Call.wellFormed : Call → Bool
  | .reject err => (errorsAs err).isSome
  | _ => true

/-- The context after one call; the value `validate` returns is dropped. -/
def step (env : Env) (fc : frankenPHPContext) : Call → Except String frankenPHPContext
  | .closeContext => closeContext fc
  | .reject err => reject fc err
  | .validate =>
    match validate env fc with
    | .error p => .error p
    | .ok (fc1, _) => .ok fc1

/-- The contexts after each call of a sequence, in order, up to the first call that
panics, and that panic if there is one. -/
def runCalls (env : Env) : frankenPHPContext → List Call →
    List frankenPHPContext × Option String
  | _, [] => ([], none)
  | fc, c :: cs =>
    match step env fc c with
    | .error p => ([], some p)
    | .ok fc1 => (fc1 :: (runCalls env fc1 cs).1, (runCalls env fc1 cs).2)

/-- How often the completion channel changed state along a run that starts in `fc`. -/
def closeCount : frankenPHPContext → List frankenPHPContext → Nat
  | _, [] => 0
  | fc, fc1 :: rest => (if fc.done = fc1.done then 0 else 1) + closeCount fc1 rest

/-! ## Reading a header value as an integer -/

/-- Value of a string of decimal digits read after the digits worth `n`; `none` when a
character is not a digit. No bound on the magnitude. -/
def digitsValue : Nat → List Char → Option Nat
  | n, [] => some n
  | n, c :: cs =>
    match digitVal c with
    | none => none
    | some d => digitsValue (n * 10 + d) cs

/-- The integer a string denotes: an optional sign and at least one decimal digit, of any
magnitude; `none` when the string is not such a numeral. -/
def integerValue (s : String) : Option Int :=
  match s.data with
  | [] => none
  | c :: cs =>
    if c = Char.ofNat 45 then
      match cs with
      | [] => none
      | _ :: _ => Option.map (fun (v : Nat) => -(v : Int)) (digitsValue 0 cs)
    else if c = Char.ofNat 43 then
      match cs with
      | [] => none
      | _ :: _ => Option.map (fun (v : Nat) => (v : Int)) (digitsValue 0 cs)
    else Option.map (fun (v : Nat) => (v : Int)) (digitsValue 0 (c :: cs))

/-- A printable ASCII character other than the double quote and the backslash: the
characters `strconv.Quote` copies unchanged whatever the Unicode tables are. -/
def plainChar (c : Char) : Bool :=
  0x20 ≤ c.toNat && c.toNat ≤ 0x7E && c.toNat != 34 && c.toNat != 92

/-! ## Worker options (`options.go`) -/

/-- A Go func value, known by its identity only. -/
abbrev FuncRef := Nat

/-- The handle `*extensionWorkers`: the name, file and thread count it was made with and
the backing worker, nil until initialization binds it. Its field `options` is the slice
that `WithExtensionWorkers` appends to; the last element of that slice refers back to the
handle, and the slice is kept by the option that `WithExtensionWorkers` returns. -/
structure extensionWorkers where
  name : String
  fileName : String
  num : Int
  internalWorker : Option worker := none
deriving DecidableEq, Repr

/-- The struct `workerOpt`. -/
structure workerOpt where
  name : String
  fileName : String
  num : Int
  env : PreparedEnv
  watch : List String
  maxConsecutiveFailures : Int
  extensionWorkers : Option extensionWorkers
  onThreadReady : Option FuncRef
  onThreadShutdown : Option FuncRef
  onServerStartup : Option FuncRef
  onServerShutdown : Option FuncRef
deriving DecidableEq, Repr

/-- The type `WorkerOption`: the `workerOpt` afterwards and the error returned. -/
abbrev WorkerOption := workerOpt → workerOpt × Option GoError

/-- The option `WithWorkerMaxFailures`; `%d` prints the integer in decimal. -/
def WithWorkerMaxFailures (maxFailures : Int) : WorkerOption := fun w =>
  if maxFailures < -1 then
    (w, some (.errorString
      ("max consecutive failures must be >= -1, got " ++ toString maxFailures)))
  else ({ w with maxConsecutiveFailures := maxFailures }, none)

/-- A Go `map[string]string`; `none` is the nil map. -/
abbrev StringMap := Option (List (String × String))

/-- The constant `defaultMaxConsecutiveFailures`. -/
def defaultMaxConsecutiveFailures : Int := 6

/-- The struct `opt`. Logger and metrics are references, `maxWaitTime` a duration. -/
structure opt where
  numThreads : Int
  maxThreads : Int
  workers : List workerOpt
  logger : Option Nat
  metrics : Option Nat
  phpIni : StringMap
  maxWaitTime : Int
deriving DecidableEq, Repr

/-- The type `Option` of the package: the `opt` afterwards and the error returned. -/
abbrev GoOption := opt → opt × Option GoError

/-- The option `WithNumThreads`. -/
def WithNumThreads (numThreads : Int) : GoOption := fun o =>
  ({ o with numThreads := numThreads }, none)

/-- The option `WithMaxThreads`. -/
def WithMaxThreads (maxThreads : Int) : GoOption := fun o =>
  ({ o with maxThreads := maxThreads }, none)

/-- The option `WithMetrics`. -/
def WithMetrics (m : Option Nat) : GoOption := fun o =>
  ({ o with metrics := m }, none)

/-- The option `WithLogger`. -/
def WithLogger (l : Option Nat) : GoOption := fun o =>
  ({ o with logger := l }, none)

/-- The option `WithPhpIni`. -/
def WithPhpIni (overrides : StringMap) : GoOption := fun o =>
  ({ o with phpIni := overrides }, none)

/-- The option `WithMaxWaitTime`. -/
def WithMaxWaitTime (maxWaitTime : Int) : GoOption := fun o =>
  ({ o with maxWaitTime := maxWaitTime }, none)

/-- The option `WithWorkerEnv`; `PrepareEnv` is declared outside `options.go`. -/
def WithWorkerEnv (PrepareEnv : StringMap → PreparedEnv) (env : StringMap) : WorkerOption :=
  fun w => ({ w with env := PrepareEnv env }, none)

/-- The option `WithWorkerWatchMode`. -/
def WithWorkerWatchMode (watch : List String) : WorkerOption := fun w =>
  ({ w with watch := watch }, none)

/-- The option `WithWorkerOnReady`. -/
def WithWorkerOnReady (f : Option FuncRef) : WorkerOption := fun w =>
  ({ w with onThreadReady := f }, none)

/-- The option `WithWorkerOnShutdown`. -/
def WithWorkerOnShutdown (f : Option FuncRef) : WorkerOption := fun w =>
  ({ w with onThreadShutdown := f }, none)

/-- The option `WithWorkerOnServerStartup`. -/
def WithWorkerOnServerStartup (f : Option FuncRef) : WorkerOption := fun w =>
  ({ w with onServerStartup := f }, none)

/-- The option `WithWorkerOnServerShutdown`. -/
def WithWorkerOnServerShutdown (f : Option FuncRef) : WorkerOption := fun w =>
  ({ w with onServerShutdown := f }, none)

/-- The unexported option `withExtensionWorkers`. -/
def withExtensionWorkers (w : extensionWorkers) : WorkerOption := fun wo =>
  ({ wo with extensionWorkers := some w }, none)

/-- The loop of `WithWorkers` over its worker options: each is applied to the draft in
turn, and the first error ends the loop. -/
def applyWorkerOptions : List WorkerOption → workerOpt → workerOpt × Option GoError
  | [], worker => (worker, none)
  | option :: rest, worker =>
    match option worker with
    | (worker1, some err) => (worker1, some err)
    | (worker1, none) => applyWorkerOptions rest worker1

/-- The draft `workerOpt` that `WithWorkers` starts from. -/
def newWorkerOpt (PrepareEnv : StringMap → PreparedEnv) (name fileName : String) (num : Int) :
    workerOpt :=
  { name := name, fileName := fileName, num := num, env := PrepareEnv none, watch := [],
    maxConsecutiveFailures := defaultMaxConsecutiveFailures, extensionWorkers := none,
    onThreadReady := none, onThreadShutdown := none, onServerStartup := none,
    onServerShutdown := none }

/-- The option `WithWorkers`. The closure keeps the slice `options` and ranges over it when
it is applied: `options` here is the list that the slice holds then. -/
def WithWorkers (PrepareEnv : StringMap → PreparedEnv) (name fileName : String) (num : Int)
    (options : List WorkerOption) : GoOption := fun o =>
  match applyWorkerOptions options (newWorkerOpt PrepareEnv name fileName num) with
  | (_, some err) => (o, some err)
  | (worker, none) => ({ o with workers := o.workers ++ [worker] }, none)

/-- A Go slice of worker options: the address of its backing array, the index in that
array of its first element, its length and its capacity. -/
structure OptionSlice where
  array : Nat
  offset : Nat
  len : Nat
  cap : Nat
deriving DecidableEq, Repr

/-- The memory that holds the backing arrays of the slices of worker options: the cell at
each index of each array, the address the next allocation gets, and the capacity the
runtime gives to a grown slice of a given length. -/
structure Memory where
  cell : Nat → Nat → WorkerOption
  next : Nat
  growCap : Nat → Nat

/-- The options a slice holds in a memory, in order: what a `range` over the slice reads. -/
def OptionSlice.read (s : OptionSlice) (mem : Memory) : List WorkerOption :=
  (List.range s.len).map (fun i => mem.cell s.array (s.offset + i))

/-- The builtin `append(s, x)`: the slice returned and the memory afterwards. With spare
capacity the element is written in place, into the cell after the last one of `s`, and the
slice returned shares the array of `s`; without, the elements are copied to a new array. -/
def appendOption (mem : Memory) (s : OptionSlice) (x : WorkerOption) : OptionSlice × Memory :=
  if s.len < s.cap then
    ({ s with len := s.len + 1 },
      { mem with
        cell := fun a i => if a = s.array ∧ i = s.offset + s.len then x else mem.cell a i })
  else
    ({ array := mem.next, offset := 0, len := s.len + 1, cap := mem.growCap (s.len + 1) },
      { mem with
        cell := fun a i =>
          if a = mem.next then
            if i < s.len then mem.cell s.array (s.offset + i)
            else if i = s.len then x else mem.cell a i
          else mem.cell a i
        next := mem.next + 1 })

/-- The slice a call gets for variadic arguments that are written out one by one: a new
array that holds exactly them, with no spare capacity. -/
def storeArguments (mem : Memory) (args : List WorkerOption) : OptionSlice × Memory :=
  ({ array := mem.next, offset := 0, len := args.length, cap := args.length },
    { mem with
      cell := fun a i => if a = mem.next then args.getD i (mem.cell a i) else mem.cell a i
      next := mem.next + 1 })

/-- A memory with no array allocated; a grown slice gets exactly the capacity it needs. -/
def emptyMemory : Memory :=
  { cell := fun _ _ w => (w, none), next := 0, growCap := fun n => n }

/-- The function `WithExtensionWorkers`, called with the slice `options` in memory `mem`:
the handle, the option that registers it, and the memory afterwards. The option keeps the
appended slice and ranges over it when it is applied, so what it does depends on the memory
it is applied in. -/
def WithExtensionWorkers (PrepareEnv : StringMap → PreparedEnv) (name fileName : String)
    (numThreads : Int) (options : OptionSlice) (mem : Memory) :
    extensionWorkers × (Memory → GoOption) × Memory :=
  let w : extensionWorkers := { name := name, fileName := fileName, num := numThreads }
  let appended := appendOption mem options (withExtensionWorkers w)
  (w, fun m => WithWorkers PrepareEnv w.name w.fileName w.num (appended.1.read m), appended.2)

/-- A worker option as the constructors of the package build it. -/
inductive WorkerOptionCall where
  | WithWorkerEnv (env : StringMap)
  | WithWorkerWatchMode (watch : List String)
  | WithWorkerMaxFailures (maxFailures : Int)
  | WithWorkerOnReady (f : Option FuncRef)
  | WithWorkerOnShutdown (f : Option FuncRef)
  | WithWorkerOnServerStartup (f : Option FuncRef)
  | WithWorkerOnServerShutdown (f : Option FuncRef)
  | withExtensionWorkers (w : extensionWorkers)
deriving DecidableEq, Repr

/-- The worker option a constructor call stands for. -/
def WorkerOptionCall.run (PrepareEnv : StringMap → PreparedEnv) :
    WorkerOptionCall → WorkerOption
  | .WithWorkerEnv env => FrankenPHP.WithWorkerEnv PrepareEnv env
  | .WithWorkerWatchMode watch => FrankenPHP.WithWorkerWatchMode watch
  | .WithWorkerMaxFailures n => FrankenPHP.WithWorkerMaxFailures n
  | .WithWorkerOnReady f => FrankenPHP.WithWorkerOnReady f
  | .WithWorkerOnShutdown f => FrankenPHP.WithWorkerOnShutdown f
  | .WithWorkerOnServerStartup f => FrankenPHP.WithWorkerOnServerStartup f
  | .WithWorkerOnServerShutdown f => FrankenPHP.WithWorkerOnServerShutdown f
  | .withExtensionWorkers w => FrankenPHP.withExtensionWorkers w

/-- Whether a call is a `WithWorkerMaxFailures`. -/
def WorkerOptionCall.isMaxFailures : WorkerOptionCall → Bool
  | .WithWorkerMaxFailures _ => true
  | _ => false

/-- Whether two calls are calls of the same constructor. -/
def WorkerOptionCall.sameKind : WorkerOptionCall → WorkerOptionCall → Bool
  | .WithWorkerEnv _, .WithWorkerEnv _ => true
  | .WithWorkerWatchMode _, .WithWorkerWatchMode _ => true
  | .WithWorkerMaxFailures _, .WithWorkerMaxFailures _ => true
  | .WithWorkerOnReady _, .WithWorkerOnReady _ => true
  | .WithWorkerOnShutdown _, .WithWorkerOnShutdown _ => true
  | .WithWorkerOnServerStartup _, .WithWorkerOnServerStartup _ => true
  | .WithWorkerOnServerShutdown _, .WithWorkerOnServerShutdown _ => true
  | .withExtensionWorkers _, .withExtensionWorkers _ => true
  | _, _ => false

/-- Whether the field a call sets holds, in `w`, the value the call gave. -/
def WorkerOptionCall.holdsIn (PrepareEnv : StringMap → PreparedEnv) :
    WorkerOptionCall → workerOpt → Bool
  | .WithWorkerEnv env, w => w.env = PrepareEnv env
  | .WithWorkerWatchMode watch, w => w.watch = watch
  | .WithWorkerMaxFailures n, w => w.maxConsecutiveFailures = n
  | .WithWorkerOnReady f, w => w.onThreadReady = f
  | .WithWorkerOnShutdown f, w => w.onThreadShutdown = f
  | .WithWorkerOnServerStartup f, w => w.onServerStartup = f
  | .WithWorkerOnServerShutdown f, w => w.onServerShutdown = f
  | .withExtensionWorkers h, w => w.extensionWorkers = some h

/-- An option as the constructors of the package build it, a call being written with its
worker options as arguments, one by one. -/
inductive OptionCall where
  | WithNumThreads (numThreads : Int)
  | WithMaxThreads (maxThreads : Int)
  | WithMetrics (m : Option Nat)
  | WithWorkers (name fileName : String) (num : Int) (options : List WorkerOptionCall)
  | WithExtensionWorkers (name fileName : String) (numThreads : Int)
      (options : List WorkerOptionCall)
  | WithLogger (l : Option Nat)
  | WithPhpIni (overrides : StringMap)
  | WithMaxWaitTime (maxWaitTime : Int)
deriving Repr

/-- The option a constructor call stands for. The slice of a call with written-out
arguments is new and has no spare capacity, so the option of `WithExtensionWorkers` ranges
over the caller's options followed by the binding of the handle. -/
def OptionCall.run (PrepareEnv : StringMap → PreparedEnv) : OptionCall → GoOption
  | .WithNumThreads n => FrankenPHP.WithNumThreads n
  | .WithMaxThreads n => FrankenPHP.WithMaxThreads n
  | .WithMetrics m => FrankenPHP.WithMetrics m
  | .WithWorkers name fileName num options =>
    FrankenPHP.WithWorkers PrepareEnv name fileName num (options.map (·.run PrepareEnv))
  | .WithExtensionWorkers name fileName numThreads options =>
    FrankenPHP.WithWorkers PrepareEnv name fileName numThreads
      (options.map (·.run PrepareEnv) ++
        [FrankenPHP.withExtensionWorkers
          { name := name, fileName := fileName, num := numThreads }])
  | .WithLogger l => FrankenPHP.WithLogger l
  | .WithPhpIni overrides => FrankenPHP.WithPhpIni overrides
  | .WithMaxWaitTime d => FrankenPHP.WithMaxWaitTime d

/-- The zero value of `opt`. -/
def zeroOpt : opt :=
  { numThreads := 0, maxThreads := 0, workers := [], logger := none, metrics := none,
    phpIni := none, maxWaitTime := 0 }

/-- The configuration after applying a sequence of options to `o`, one after the other,
whatever each returns. -/
def configAfter (options : List GoOption) (o : opt) : opt :=
  options.foldl (fun acc option => (option acc).1) o

/-- Modelled from the spec: the loop of `Init` (declared outside src/) over its options,
"applied left-to-right; each may fail, short-circuiting the rest". -/
def applyOptions : List GoOption → opt → opt × Option GoError
  | [], o => (o, none)
  | option :: rest, o =>
    match option o with
    | (o1, some err) => (o1, some err)
    | (o1, none) => applyOptions rest o1

/-! ## Initialization (outside src/) -/

/-- Modelled from the spec: how initialization ends, with a returned error ("fail cleanly
with a descriptive error"), with a fatal abort, or with the pools of the configuration
serving. -/
inductive InitOutcome where
  | failed (err : GoError)
  | aborted (diagnostic : String)
  | serving (pools : List workerOpt)
deriving DecidableEq, Repr

/-- Modelled from the spec: the pools that are serving after initialization, none unless
it succeeded. -/
def InitOutcome.started : InitOutcome → List workerOpt
  | .serving pools => pools
  | _ => []

/-- Modelled from the spec: `Init` and the registration checks it runs are declared
outside src/. The options are applied to a zero-value base, left to right, the first error
ending initialization; then the aggregate configuration is validated before any pool may
run, "no duplicate pool names, thread budget sufficiency": two pools with the same name
make initialization fail with a duplicate-name error, and a thread budget that cannot
satisfy every declared pool makes it abort fatally. What budget suffices is left to
`threadsSuffice`. -/
def Init (threadsSuffice : opt → Bool) (options : List GoOption) : InitOutcome :=
  match applyOptions options zeroOpt with
  | (_, some err) => .failed err
  | (o, none) =>
    if (o.workers.map (·.name)).Nodup then
      if threadsSuffice o then .serving o.workers
      else .aborted "insufficient threads declared for the worker pools"
    else .failed (.errorString "two workers cannot have the same name")

/-! ## The rest of `context.go`, and `workerextension.go` -/

/-- What running a channel operation or a `select` comes to: it completes at once with a
value, or the goroutine has to wait. -/
inductive Attempt (α : Type) where
  | completes (value : α)
  | waits
deriving DecidableEq, Repr

/-- The receive `<-ch` on a channel on which nothing is ever sent: it completes on a closed
channel, and waits on an open channel and on a nil one. -/
def recv : Chan → Attempt Unit
  | .closedChan => .completes ()
  | .openChan => .waits
  | .nilChan => .waits

/-- The statement `select { case <-ch: return a; default: return b }`: the receive is taken
when it can complete, the `default` branch when it cannot. -/
def selectRecvOrDefault {α : Type} (ch : Chan) (a b : α) : Attempt α :=
  match recv ch with
  | .completes _ => .completes a
  | .waits => .completes b

/-- The statement `select { case <-ch: return a }`, without a `default` branch. -/
def selectRecv {α : Type} (ch : Chan) (a : α) : Attempt α :=
  match recv ch with
  | .completes _ => .completes a
  | .waits => .waits

/-- The method `clientHasClosed`: the context afterwards and the answer. -/
def clientHasClosed (fc : frankenPHPContext) : Attempt (frankenPHPContext × Bool) :=
  match fc.request with
  | none => .completes (fc, false)
  | some r => selectRecvOrDefault r.ctxDone (fc, true) (fc, false)

/-- Package variables and functions that `context.go` and `workerextension.go` use and
that are declared elsewhere, with what `os.Getwd()` returns. -/
structure Globals where
  logger : Option Nat
  EmbeddedAppPath : String
  Getwd : Except GoError String
  splitCgiPath : frankenPHPContext → frankenPHPContext

/-- The type `RequestOption`: the context afterwards and the error returned. -/
abbrev RequestOption := frankenPHPContext → frankenPHPContext × Option GoError

/-- The loop of `NewRequestWithContext` over its options; the first error ends it. -/
def applyRequestOptions : List RequestOption → frankenPHPContext →
    frankenPHPContext × Option GoError
  | [], fc => (fc, none)
  | o :: rest, fc =>
    match o fc with
    | (fc1, some err) => (fc1, some err)
    | (fc1, none) => applyRequestOptions rest fc1

/-- The defaulting of the document root in `NewRequestWithContext`. -/
def resolveDocumentRoot (g : Globals) (fc : frankenPHPContext) :
    Except GoError frankenPHPContext :=
  if fc.documentRoot = "" then
    if g.EmbeddedAppPath ≠ "" then .ok { fc with documentRoot := g.EmbeddedAppPath }
    else
      match g.Getwd with
      | .error err => .error err
      | .ok dir => .ok { fc with documentRoot := dir }
  else .ok fc

/-- The context `NewRequestWithContext` starts from, at clock reading `now`. -/
def newRequestContext (now : Nat) (r : Request) : frankenPHPContext :=
  { newFrankenPHPContext now with request := some r }

/-- The defaulting of the logger in `NewRequestWithContext`. -/
def defaultLogger (g : Globals) (fc : frankenPHPContext) : frankenPHPContext :=
  if fc.logger = none then { fc with logger := g.logger } else fc

/-- The function `NewRequestWithContext`, at clock reading `now`: an error, or the request
returned and the context it carries. -/
def NewRequestWithContext (g : Globals) (now : Nat) (r : Request) (opts : List RequestOption) :
    Except GoError (Request × frankenPHPContext) :=
  match applyRequestOptions opts (newRequestContext now r) with
  | (_, some err) => .error err
  | (fc1, none) =>
    match resolveDocumentRoot g (defaultLogger g fc1) with
    | .error err => .error err
    | .ok fc3 =>
      match fc3.worker with
      | some w => .ok (r, { fc3 with scriptFilename := w.fileName })
      | none => .ok (r, g.splitCgiPath fc3)

/-- The context `SendMessage` builds before it calls the worker. -/
def messageContext (g : Globals) (now : Nat) (w : extensionWorkers) (message : GoAny)
    (rw : Option ResponseWriter) : frankenPHPContext :=
  { newFrankenPHPContext now with
    logger := g.logger
    worker := w.internalWorker
    responseWriter := rw
    handlerParameters := message }

/-- The method `SendMessage`. The method `handleRequest` of `worker` is declared outside
src/: it is a parameter that takes the state of the workers, the receiver and the context,
and gives the state and the context afterwards and the error returned. The result is the
state of the workers afterwards, the value returned and the error. -/
def SendMessage {σ : Type}
    (handleRequest : σ → Option worker → frankenPHPContext →
      σ × frankenPHPContext × Option GoError)
    (g : Globals) (now : Nat) (w : extensionWorkers) (message : GoAny)
    (rw : Option ResponseWriter) (s : σ) : σ × GoAny × Option GoError :=
  let fc := messageContext g now w message rw
  match handleRequest s w.internalWorker fc with
  | (s1, fc1, err) => (s1, fc1.handlerReturn, err)

/-! ## Sample values -/

/-- A 64-bit environment with the two rejection errors as status-400 errors and no
printable character beyond Latin-1. -/
def env64 : Env :=
  { ErrInvalidRequestPath := ⟨"invalid request path", 400⟩
    ErrInvalidContentLengthHeader := ⟨"invalid Content-Length header", 400⟩
    intSize := 64
    printTable := fun _ => false }

/-- A request for `path` whose `Content-Length` header is `contentLength`. -/
def sampleRequest (path contentLength : String) : Request :=
  { path := path, header := [("Content-Length", [contentLength])], ctxDone := .openChan }

/-- A fresh context holding `sampleRequest path contentLength` and an empty sink. -/
def sampleContext (path contentLength : String) (flusher : Bool) : frankenPHPContext :=
  { newFrankenPHPContext 0 with
    request := some (sampleRequest path contentLength)
    responseWriter := some { flusher := flusher, calls := [] } }

/-- The context `sampleContext` after it was closed. -/
def doneContext (path contentLength : String) (flusher : Bool) : frankenPHPContext :=
  { sampleContext path contentLength flusher with isDone := true, done := .closedChan }

/-- The context `sampleContext NUL "" true` after `validate` rejected it. -/
def rejectedContext : frankenPHPContext :=
  { doneContext NUL "" true with
    responseWriter := some { flusher := true, calls :=
      [.WriteHeader 400, .Write "invalid request path", .Flush] } }

/-- The header value `"12"`, double quotes included. -/
def quotedTwelve : String := ⟨[Char.ofNat 34, Char.ofNat 49, Char.ofNat 50, Char.ofNat 34]⟩

/-- A sample `PrepareEnv`: the pairs of the map, none for the nil map. -/
def samplePrepareEnv : StringMap → PreparedEnv := fun m => m.getD []

/-- Sample globals: no embedded application, a working directory that resolves, and a
path splitting that records the request path as the script name. -/
def sampleGlobals : Globals :=
  { logger := some 1, EmbeddedAppPath := "", Getwd := .ok "/srv",
    splitCgiPath := fun fc =>
      { fc with scriptName := (fc.request.map (·.path)).getD "" } }

/-- Sample globals whose working directory cannot be resolved. -/
def globalsNoWorkingDir : Globals :=
  { sampleGlobals with Getwd := .error (.errorString "getwd: no such file or directory") }

/-- A request option that binds the context to the worker of `worker.php`, as
`WithWorkerName` does for a registered name. -/
def bindSampleWorker : RequestOption := fun fc =>
  ({ fc with worker := some { fileName := "worker.php" } }, none)

/-- A request option that fails. -/
def failingRequestOption : RequestOption := fun fc =>
  (fc, some (.errorString "bad option"))

/-- A `handleRequest` that counts its calls in the state of the workers, sets the return
value to the echo of a string parameter and reports no error. -/
def echoHandleRequest : Nat → Option worker → frankenPHPContext →
    Nat × frankenPHPContext × Option GoError := fun calls _ fc =>
  match fc.handlerParameters with
  | .str p => (calls + 1, { fc with handlerReturn := .str ("received message: " ++ p) }, none)
  | _ => (calls + 1, fc, none)

/-- A sample handle, bound to the worker of `message-worker.php`. -/
def sampleHandle : extensionWorkers :=
  { name := "extensionWorkers", fileName := "testdata/message-worker.php", num := 1,
    internalWorker := some { fileName := "testdata/message-worker.php" } }

/-- A caller's slice `make([]WorkerOption, 0, 1)`: empty, with room for one element, on
the array at address 0. -/
def spareSlice : OptionSlice := { array := 0, offset := 0, len := 0, cap := 1 }

/-- The memory in which `spareSlice` has been allocated. -/
def spareMemory : Memory := { emptyMemory with next := 1 }

/-- The call `WithExtensionWorkers("a", "a.php", 1, spare...)` on the caller's slice. -/
def firstCall : extensionWorkers × (Memory → GoOption) × Memory :=
  WithExtensionWorkers samplePrepareEnv "a" "a.php" 1 spareSlice spareMemory

/-- The call `WithExtensionWorkers("b", "b.php", 1, spare...)` that follows, on the same
slice. -/
def secondCall : extensionWorkers × (Memory → GoOption) × Memory :=
  WithExtensionWorkers samplePrepareEnv "b" "b.php" 1 spareSlice firstCall.2.2

/-- A sample `workerOpt`, as `WithWorkers` starts from. -/
def sampleWorkerOpt : workerOpt :=
  { name := "w", fileName := "worker.php", num := 1, env := [], watch := [],
    maxConsecutiveFailures := 6, extensionWorkers := none, onThreadReady := none,
    onThreadShutdown := none, onServerStartup := none, onServerShutdown := none }

/-! ## Lemmas on `closeContext` and `reject` -/

theorem closeContext_of_done (fc : frankenPHPContext) (h : fc.isDone = true) :
    closeContext fc = .ok fc := by
  simp [closeContext, h]

theorem closeContext_of_open (fc : frankenPHPContext) (h : fc.isDone = false)
    (hch : fc.done = .openChan) :
    closeContext fc = .ok { fc with done := .closedChan, isDone := true } := by
  simp [closeContext, h, hch, close]

theorem closeContext_ok_closed (fc fc1 : frankenPHPContext) (h : fc.isDone = false)
    (hok : closeContext fc = .ok fc1) :
    fc.done = .openChan ∧ fc1 = { fc with done := .closedChan, isDone := true } := by
  cases hch : fc.done <;> simp [closeContext, h, hch, close] at hok
  exact ⟨rfl, hok.symm⟩

theorem reject_of_done (fc : frankenPHPContext) (err : GoError) (h : fc.isDone = true) :
    reject fc err = .ok fc := by
  simp [reject, h]

theorem reject_of_not_rejected (fc : frankenPHPContext) (err : GoError)
    (h : fc.isDone = false) (hnot : errorsAs err = none) :
    reject fc err = .error "only instance of ErrRejected can be passed to reject" := by
  simp [reject, h, hnot]

/-- The context `reject` leaves behind when it goes through: sink written, channel closed. -/
theorem reject_of_open (fc : frankenPHPContext) (err : GoError) (re : ErrRejected)
    (h : fc.isDone = false) (hch : fc.done = .openChan) (hre : errorsAs err = some re) :
    reject fc err = .ok { fc with
      responseWriter := fc.responseWriter.map (fun rw => writeRejection rw re err)
      done := .closedChan, isDone := true } := by
  cases hrw : fc.responseWriter with
  | none =>
    simp [reject, h, hre, hrw, closeContext, close, hch]
  | some rw =>
    simp [reject, h, hre, hrw, closeContext, close, hch]

/-! ## Lemmas on the library functions -/

theorem containsChars_singleton (c : Char) (cs : List Char) :
    containsChars cs [c] = true ↔ c ∈ cs := by
  induction cs with
  | nil => simp [containsChars]
  | cons a as ih =>
    simp only [containsChars, Bool.or_eq_true, ih, List.mem_cons]
    constructor
    · rintro (h | h)
      · left
        simpa [List.isPrefixOf] using h
      · exact Or.inr h
    · rintro (h | h)
      · left
        simp [List.isPrefixOf, h]
      · exact Or.inr h

/-- The call `strings.Contains(s, "\x00")` is true exactly when NUL occurs in `s`. -/
theorem stringsContains_NUL (s : String) :
    stringsContains s NUL = true ↔ Char.ofNat 0 ∈ s.data := by
  have h : NUL.data = [Char.ofNat 0] := rfl
  rw [stringsContains, h, containsChars_singleton]

theorem digitsValue_ge (cs : List Char) : ∀ (n v : Nat), digitsValue n cs = some v → n ≤ v := by
  induction cs with
  | nil => intro n v h; simp [digitsValue] at h; omega
  | cons c cs ih =>
    intro n v h
    simp only [digitsValue] at h
    cases hd : digitVal c with
    | none => simp [hd] at h
    | some d =>
      simp only [hd] at h
      have := ih _ _ h
      omega

theorem parseUintLoop_ok (maxVal : Nat) (cs : List Char) :
    ∀ (n v : Nat), parseUintLoop maxVal n cs = .ok v → digitsValue n cs = some v := by
  induction cs with
  | nil => intro n v h; simpa [parseUintLoop, digitsValue] using h
  | cons c cs ih =>
    intro n v h
    simp only [parseUintLoop] at h
    simp only [digitsValue]
    cases hd : digitVal c with
    | none => simp [hd] at h
    | some d =>
      simp only [hd] at h ⊢
      split at h
      · simp at h
      · exact ih _ _ h

theorem parseUintLoop_of_le (maxVal : Nat) (cs : List Char) :
    ∀ (n v : Nat), digitsValue n cs = some v → v ≤ maxVal →
      parseUintLoop maxVal n cs = .ok v := by
  induction cs with
  | nil => intro n v h _; simpa [parseUintLoop, digitsValue] using h
  | cons c cs ih =>
    intro n v h hle
    simp only [digitsValue] at h
    simp only [parseUintLoop]
    cases hd : digitVal c with
    | none => simp [hd] at h
    | some d =>
      simp only [hd] at h ⊢
      have hge := digitsValue_ge cs _ _ h
      rw [if_neg (by omega)]
      exact ih _ _ h hle

/-- When `Atoi` succeeds the string is a numeral and the result is the integer it denotes. -/
theorem Atoi_sound (intSize : Nat) (s : String) (m : Int) (h : Atoi intSize s = .ok m) :
    integerValue s = some m := by
  unfold Atoi at h
  unfold integerValue
  cases hs : s.data with
  | nil => simp [hs] at h
  | cons c cs =>
    simp only [hs] at h ⊢
    by_cases hm : c = Char.ofNat 45
    · subst hm
      cases cs with
      | nil => simp at h
      | cons b bs =>
        simp only [or_true, if_true, decide_True] at h
        cases hl : parseUintLoop (2 ^ intSize - 1) 0 (b :: bs) with
        | error k => simp [hl] at h
        | ok un =>
          simp only [hl] at h
          have hv := parseUintLoop_ok _ _ _ _ hl
          simp only [if_true, hv, Option.map_some']
          split at h
          · simp at h
          · split at h
            · simp at h
            · simpa using h
    · by_cases hp : c = Char.ofNat 43
      · subst hp
        cases cs with
        | nil => simp at h
        | cons b bs =>
          simp only [true_or, if_true] at h
          cases hl : parseUintLoop (2 ^ intSize - 1) 0 (b :: bs) with
          | error k => simp [hl] at h
          | ok un =>
            simp only [hl] at h
            have hv := parseUintLoop_ok _ _ _ _ hl
            simp only [hm, if_false, if_true, hv, Option.map_some']
            split at h
            · simp at h
            · split at h
              · simp at h
              · simpa [hm] using h
      · simp only [hm, hp, or_self, if_false] at h ⊢
        cases hl : parseUintLoop (2 ^ intSize - 1) 0 (c :: cs) with
        | error k => simp [hl] at h
        | ok un =>
          simp only [hl] at h
          have hv := parseUintLoop_ok _ _ _ _ hl
          simp only [hv, Option.map_some']
          split at h
          · simp at h
          · split at h
            · simp at h
            · simpa [hm] using h

/-- The function `Atoi` accepts every numeral whose value is non-negative and below
`2^(intSize-1)`, and returns that value. -/
theorem Atoi_of_nonneg (intSize : Nat) (s : String) (n : Int) (h : integerValue s = some n)
    (h0 : 0 ≤ n) (hlt : n < 2 ^ (intSize - 1)) : Atoi intSize s = .ok n := by
  have hpow : 2 ^ (intSize - 1) ≤ 2 ^ intSize :=
    Nat.pow_le_pow_right (by norm_num) (Nat.sub_le _ _)
  have key : ∀ (b : Char) (bs : List Char) (v : Nat), digitsValue 0 (b :: bs) = some v →
      v < 2 ^ (intSize - 1) → parseUintLoop (2 ^ intSize - 1) 0 (b :: bs) = .ok v := by
    intro b bs v hv hvlt
    exact parseUintLoop_of_le _ _ _ _ hv (by omega)
  unfold integerValue at h
  unfold Atoi
  cases hs : s.data with
  | nil => simp [hs] at h
  | cons c cs =>
    simp only [hs] at h ⊢
    by_cases hm : c = Char.ofNat 45
    · subst hm
      cases cs with
      | nil => simp at h
      | cons b bs =>
        simp only [if_true, Option.map_eq_some'] at h
        obtain ⟨v, hv, hn⟩ := h
        have hv0 : v = 0 := by omega
        subst hv0
        have hl := key b bs 0 hv (Nat.pos_pow_of_pos _ (by norm_num))
        simp [hl, ← hn]
    · by_cases hp : c = Char.ofNat 43
      · subst hp
        cases cs with
        | nil => simp at h
        | cons b bs =>
          simp only [hm, if_false, if_true, Option.map_eq_some'] at h
          obtain ⟨v, hv, hn⟩ := h
          subst hn
          have hvlt : v < 2 ^ (intSize - 1) := by exact_mod_cast hlt
          have hl := key b bs v hv hvlt
          simp [hl, hm]
          omega
      · simp only [hm, hp, if_false, Option.map_eq_some'] at h
        obtain ⟨v, hv, hn⟩ := h
        subst hn
        have hvlt : v < 2 ^ (intSize - 1) := by exact_mod_cast hlt
        have hl := key c cs v hv hvlt
        simp [hl, hm, hp]
        omega

theorem appendEscapedRune_plain (printTable : Nat → Bool) (c : Char) (h : plainChar c = true) :
    appendEscapedRune printTable c = [c] := by
  simp only [plainChar, Bool.and_eq_true, decide_eq_true_eq, bne_iff_ne, ne_eq] at h
  obtain ⟨⟨⟨h1, h2⟩, h3⟩, h4⟩ := h
  have hq : c ≠ Char.ofNat 34 := by
    intro hc; apply h3; rw [hc]; rfl
  have hb : c ≠ Char.ofNat 92 := by
    intro hc; apply h4; rw [hc]; rfl
  have hp : IsPrint printTable c.toNat = true := by
    unfold IsPrint
    rw [if_pos (by omega)]
    simp [h1, h2]
  simp [appendEscapedRune, hq, hb, hp]

/-- On a string of plain characters `strconv.Quote` only adds the two double quotes. -/
theorem Quote_plain (printTable : Nat → Bool) (s : String)
    (h : ∀ c ∈ s.data, plainChar c = true) :
    Quote printTable s = ⟨Char.ofNat 34 :: (s.data ++ [Char.ofNat 34])⟩ := by
  have hflat : ∀ l : List Char, (∀ c ∈ l, plainChar c = true) →
      l.flatMap (appendEscapedRune printTable) = l := by
    intro l
    induction l with
    | nil => intro _; rfl
    | cons a as ih =>
      intro hl
      rw [List.flatMap_cons, appendEscapedRune_plain printTable a (hl a (List.mem_cons_self _ _)),
        ih (fun c hc => hl c (List.mem_cons_of_mem _ hc))]
      rfl
  simp [Quote, hflat s.data h]

theorem containsChars_middle (pre sub post : List Char) :
    containsChars (pre ++ (sub ++ post)) sub = true := by
  induction pre with
  | nil =>
    cases h : sub ++ post with
    | nil =>
      have : sub = [] := (List.append_eq_nil.1 h).1
      simp [containsChars, this]
    | cons a as =>
      have hp : sub.isPrefixOf (a :: as) = true := by
        rw [← h, List.isPrefixOf_iff_prefix]
        exact List.prefix_append _ _
      simp [containsChars, hp]
  | cons a as ih =>
    simp only [List.cons_append, containsChars, Bool.or_eq_true]
    exact Or.inr ih

/-- The text built by `fmt.Errorf("%w: %q", err, s)` contains `s` itself when `s` is made
of plain characters. -/
theorem fmtErrorf_w_q_contains (printTable : Nat → Bool) (err : GoError) (s : String)
    (h : ∀ c ∈ s.data, plainChar c = true) :
    stringsContains (fmtErrorf_w_q printTable err s).Error s = true := by
  simp only [stringsContains, fmtErrorf_w_q, GoError.Error, Quote_plain printTable s h,
    String.data_append]
  have := containsChars_middle ((err.Error.data ++ ": ".data) ++ [Char.ofNat 34]) s.data
    [Char.ofNat 34]
  simpa using this

/-! ## Lemmas on `validate` -/

/-- The calls `reject` makes on a sink: status, text of the error, then a flush for a
flusher. -/
theorem writeRejection_eq (rw : ResponseWriter) (re : ErrRejected) (err : GoError) :
    writeRejection rw re err =
      { rw with calls := rw.calls ++ ([.WriteHeader re.status, .Write err.Error] ++
          (if rw.flusher then [SinkCall.Flush] else [])) } := by
  cases hf : rw.flusher <;> simp [writeRejection, ResponseWriter.call, hf]

theorem validate_of_nul (env : Env) (fc : frankenPHPContext) (r : Request)
    (hreq : fc.request = some r) (hnul : Char.ofNat 0 ∈ r.path.data) :
    validate env fc = rejectAndReturn fc (.rejected env.ErrInvalidRequestPath) := by
  have h := (stringsContains_NUL r.path).2 hnul
  simp [validate, hreq, h]

theorem validate_of_no_nul (env : Env) (fc : frankenPHPContext) (r : Request)
    (hreq : fc.request = some r) (hnul : Char.ofNat 0 ∉ r.path.data) :
    validate env fc =
      if r.header.Get "Content-Length" ≠ "" then
        match Atoi env.intSize (r.header.Get "Content-Length") with
        | .error _ => rejectAndReturn fc (fmtErrorf_w_q env.printTable
            (.rejected env.ErrInvalidContentLengthHeader) (r.header.Get "Content-Length"))
        | .ok contentLength =>
          if contentLength < 0 then rejectAndReturn fc (fmtErrorf_w_q env.printTable
            (.rejected env.ErrInvalidContentLengthHeader) (r.header.Get "Content-Length"))
          else .ok (fc, none)
      else .ok (fc, none) := by
  have h : stringsContains r.path NUL = false := by
    rw [← Bool.not_eq_true, stringsContains_NUL]; exact hnul
  simp [validate, hreq, h]

/-- A header value that is not a numeral, or denotes a negative integer, makes `validate`
take its rejecting branch, unless the value is empty. -/
theorem validate_of_bad_length (env : Env) (fc : frankenPHPContext) (r : Request)
    (hreq : fc.request = some r) (hnul : Char.ofNat 0 ∉ r.path.data)
    (hne : r.header.Get "Content-Length" ≠ "")
    (hbad : ∀ n, integerValue (r.header.Get "Content-Length") = some n → n < 0) :
    validate env fc = rejectAndReturn fc (fmtErrorf_w_q env.printTable
      (.rejected env.ErrInvalidContentLengthHeader) (r.header.Get "Content-Length")) := by
  rw [validate_of_no_nul env fc r hreq hnul, if_pos hne]
  cases ha : Atoi env.intSize (r.header.Get "Content-Length") with
  | error k => rfl
  | ok m =>
    have := hbad m (Atoi_sound _ _ _ ha)
    simp [this]

theorem rejectAndReturn_of_done (fc : frankenPHPContext) (e : GoError) (h : fc.isDone = true) :
    rejectAndReturn fc e = .ok (fc, some e) := by
  simp [rejectAndReturn, reject_of_done fc e h]

theorem rejectAndReturn_of_open (fc : frankenPHPContext) (e : GoError) (re : ErrRejected)
    (h : fc.isDone = false) (hch : fc.done = .openChan) (hre : errorsAs e = some re) :
    rejectAndReturn fc e = .ok ({ fc with
      responseWriter := fc.responseWriter.map (fun rw => writeRejection rw re e)
      done := .closedChan, isDone := true }, some e) := by
  simp [rejectAndReturn, reject_of_open fc e re h hch hre]

/-- The two ways `validate` ends on a context with a request: it accepts and returns the
context as it was, or it hands an error that classifies as rejected to `reject` and
returns it. -/
theorem validate_shape (env : Env) (fc : frankenPHPContext) (r : Request)
    (hreq : fc.request = some r) :
    validate env fc = .ok (fc, none) ∨
    ∃ e re, errorsAs e = some re ∧ validate env fc = rejectAndReturn fc e := by
  by_cases hnul : Char.ofNat 0 ∈ r.path.data
  · exact Or.inr ⟨.rejected env.ErrInvalidRequestPath, env.ErrInvalidRequestPath, rfl,
      validate_of_nul env fc r hreq hnul⟩
  · rw [validate_of_no_nul env fc r hreq hnul]
    by_cases hne : r.header.Get "Content-Length" = ""
    · simp [hne]
    · rw [if_pos hne]
      cases Atoi env.intSize (r.header.Get "Content-Length") with
      | error k =>
        exact Or.inr ⟨fmtErrorf_w_q env.printTable
          (.rejected env.ErrInvalidContentLengthHeader) (r.header.Get "Content-Length"),
          env.ErrInvalidContentLengthHeader, rfl, rfl⟩
      | ok m =>
        by_cases hm : m < 0
        · simp only [hm, if_true]
          exact Or.inr ⟨fmtErrorf_w_q env.printTable
            (.rejected env.ErrInvalidContentLengthHeader) (r.header.Get "Content-Length"),
            env.ErrInvalidContentLengthHeader, rfl, rfl⟩
        · simp [hm]

theorem validate_request_of_ok (env : Env) (fc : frankenPHPContext)
    (res : frankenPHPContext × Option GoError) (h : validate env fc = .ok res) :
    ∃ r, fc.request = some r := by
  cases hreq : fc.request with
  | none => simp [validate, hreq] at h
  | some r => exact ⟨r, rfl⟩

theorem rejectAndReturn_ok (fc fc1 : frankenPHPContext) (e : GoError) (oe : Option GoError)
    (h : rejectAndReturn fc e = .ok (fc1, oe)) : reject fc e = .ok fc1 ∧ oe = some e := by
  unfold rejectAndReturn at h
  cases hr : reject fc e with
  | error p => simp [hr] at h
  | ok fc2 =>
    simp only [hr, Except.ok.injEq, Prod.mk.injEq] at h
    exact ⟨by rw [h.1], h.2.symm⟩

theorem reject_ok_of_not_done (fc fc1 : frankenPHPContext) (e : GoError) (re : ErrRejected)
    (h : fc.isDone = false) (hre : errorsAs e = some re) (hok : reject fc e = .ok fc1) :
    fc.done = .openChan ∧ fc1 = { fc with
      responseWriter := fc.responseWriter.map (fun rw => writeRejection rw re e)
      done := .closedChan, isDone := true } := by
  have hch : fc.done = .openChan := by
    cases hrw : fc.responseWriter with
    | none =>
      simp only [reject, h, hre, hrw, Bool.false_eq_true, if_false] at hok
      exact (closeContext_ok_closed _ _ h hok).1
    | some rw =>
      simp only [reject, h, hre, hrw, Bool.false_eq_true, if_false] at hok
      exact (closeContext_ok_closed _ fc1 rfl hok).1
  rw [reject_of_open fc e re h hch hre] at hok
  exact ⟨hch, (Except.ok.inj hok).symm⟩

/-! ## The claims on `validate` -/

/-- C1, counterexample. As stated the claim fails on a context that is already completed:
for a request path holding NUL, `validate` returns `ErrInvalidRequestPath`, but the guard at
the head of `reject` returns before anything is written, so the sink has received no call. -/
theorem validate_nul_on_done_context_writes_nothing :
    (doneContext NUL "" true).request = some (sampleRequest NUL "") ∧
    Char.ofNat 0 ∈ (sampleRequest NUL "").path.data ∧
    validate env64 (doneContext NUL "" true) =
      .ok (doneContext NUL "" true, some (.rejected env64.ErrInvalidRequestPath)) ∧
    (doneContext NUL "" true).responseWriter = some { flusher := true, calls := [] } :=
  ⟨rfl, by decide, rfl, rfl⟩

/-- C1, amended. For every context with a request whose URL path contains NUL, whatever
its headers: if the context is not yet completed (`isDone` false, channel open), `validate`
returns exactly `ErrInvalidRequestPath`, sets `isDone`, closes the channel, and an attached
sink receives `WriteHeader` with that error's status, `Write` with its message, and `Flush`
when it is a flusher (nothing is written when no sink is attached); if the context is
already completed, `validate` returns `ErrInvalidRequestPath` and changes nothing. -/
theorem validate_nul_rejects (env : Env) (fc : frankenPHPContext) (r : Request)
    (hreq : fc.request = some r) (hnul : Char.ofNat 0 ∈ r.path.data) :
    (fc.isDone = false → fc.done = .openChan →
      validate env fc = .ok ({ fc with
        responseWriter := fc.responseWriter.map (fun rw => { rw with
          calls := rw.calls ++ ([.WriteHeader env.ErrInvalidRequestPath.status,
            .Write env.ErrInvalidRequestPath.message] ++
            (if rw.flusher then [SinkCall.Flush] else [])) })
        done := .closedChan, isDone := true },
        some (.rejected env.ErrInvalidRequestPath))) ∧
    (fc.isDone = true →
      validate env fc = .ok (fc, some (.rejected env.ErrInvalidRequestPath))) := by
  rw [validate_of_nul env fc r hreq hnul]
  constructor
  · intro h hch
    rw [rejectAndReturn_of_open fc (.rejected env.ErrInvalidRequestPath)
      env.ErrInvalidRequestPath h hch rfl]
    simp [writeRejection_eq, GoError.Error]
  · intro h
    exact rejectAndReturn_of_done fc _ h

/-- C1, witness: a fresh context with a flushing sink, path NUL and a valid header. -/
theorem validate_nul_rejects_witness :
    (sampleContext NUL "12" true).request = some (sampleRequest NUL "12") ∧
    Char.ofNat 0 ∈ (sampleRequest NUL "12").path.data ∧
    validate env64 (sampleContext NUL "12" true) =
      .ok ({ doneContext NUL "12" true with
        responseWriter := some { flusher := true, calls :=
          [.WriteHeader 400, .Write "invalid request path", .Flush] } },
        some (.rejected ⟨"invalid request path", 400⟩)) :=
  ⟨rfl, by decide, (validate_nul_rejects env64 _ _ rfl (by decide)).1 rfl rfl⟩

/-- C2, counterexample. The numeral `9223372036854775808` denotes a non-negative integer,
the path has no NUL, and `validate` on a 64-bit platform rejects it: `strconv.Atoi` reports
a range error for a value above the largest `int`. -/
theorem validate_rejects_numeral_above_int :
    integerValue "9223372036854775808" = some 9223372036854775808 ∧
    (sampleContext "/" "9223372036854775808" false).request =
      some (sampleRequest "/" "9223372036854775808") ∧
    Char.ofNat 0 ∉ (sampleRequest "/" "9223372036854775808").path.data ∧
    (sampleRequest "/" "9223372036854775808").header.Get "Content-Length" =
      "9223372036854775808" ∧
    Atoi 64 "9223372036854775808" = .error .outOfRange ∧
    validate env64 (sampleContext "/" "9223372036854775808" false) =
      .ok ({ doneContext "/" "9223372036854775808" false with
        responseWriter := some { flusher := false, calls := [.WriteHeader 400,
          .Write ("invalid Content-Length header: " ++ Quote env64.printTable
            "9223372036854775808")] } },
        some (fmtErrorf_w_q env64.printTable (.rejected env64.ErrInvalidContentLengthHeader)
          "9223372036854775808")) :=
  ⟨rfl, rfl, by decide, rfl, rfl, rfl⟩

/-- C2, amended. For every context with a request whose path has no NUL and whose
`Content-Length` value is a decimal numeral (an optional sign and digits) denoting an integer
between 0 and `2^(intSize-1) - 1`, the largest `int`, `validate` returns no error and leaves
the context as it was. -/
theorem validate_accepts_int_range (env : Env) (fc : frankenPHPContext) (r : Request) (n : Int)
    (hreq : fc.request = some r) (hnul : Char.ofNat 0 ∉ r.path.data)
    (hval : integerValue (r.header.Get "Content-Length") = some n)
    (h0 : 0 ≤ n) (hlt : n < 2 ^ (env.intSize - 1)) :
    validate env fc = .ok (fc, none) := by
  rw [validate_of_no_nul env fc r hreq hnul, Atoi_of_nonneg _ _ n hval h0 hlt]
  have : ¬ n < 0 := by omega
  simp [this]

/-- C2, witness: the largest 64-bit `int` as header value. -/
theorem validate_accepts_int_range_witness :
    (sampleContext "/" "9223372036854775807" false).request =
      some (sampleRequest "/" "9223372036854775807") ∧
    Char.ofNat 0 ∉ (sampleRequest "/" "9223372036854775807").path.data ∧
    integerValue ((sampleRequest "/" "9223372036854775807").header.Get "Content-Length") =
      some 9223372036854775807 ∧
    validate env64 (sampleContext "/" "9223372036854775807" false) =
      .ok (sampleContext "/" "9223372036854775807" false, none) :=
  ⟨rfl, by decide, rfl,
    validate_accepts_int_range env64 _ _ 9223372036854775807 rfl (by decide) rfl
      (by decide) (by decide)⟩

/-- C3, counterexample. As stated the claim fails in three ways. An empty header value is
not a numeral, yet `validate` treats it as an absent header and returns no error. The value
`"12"` (double quotes included) is rejected, but the message holds it in quoted form, with
a backslash before each of its double quotes, and does not contain the value itself. And on
a context that is already completed `validate` returns the error while the sink receives no
call. -/
theorem validate_bad_length_failures :
    (integerValue "" = none ∧
      (sampleRequest "/" "").header.Get "Content-Length" = "" ∧
      validate env64 (sampleContext "/" "" true) = .ok (sampleContext "/" "" true, none)) ∧
    (integerValue quotedTwelve = none ∧
      validate env64 (sampleContext "/" quotedTwelve false) =
        .ok ({ doneContext "/" quotedTwelve false with
          responseWriter := some { flusher := false, calls := [.WriteHeader 400,
            .Write (fmtErrorf_w_q env64.printTable
              (.rejected env64.ErrInvalidContentLengthHeader) quotedTwelve).Error] } },
          some (fmtErrorf_w_q env64.printTable
            (.rejected env64.ErrInvalidContentLengthHeader) quotedTwelve)) ∧
      stringsContains (fmtErrorf_w_q env64.printTable
        (.rejected env64.ErrInvalidContentLengthHeader) quotedTwelve).Error quotedTwelve
        = false) ∧
    (integerValue "abc" = none ∧
      validate env64 (doneContext "/" "abc" true) =
        .ok (doneContext "/" "abc" true, some (fmtErrorf_w_q env64.printTable
          (.rejected env64.ErrInvalidContentLengthHeader) "abc")) ∧
      (doneContext "/" "abc" true).responseWriter = some { flusher := true, calls := [] }) :=
  ⟨⟨rfl, rfl, rfl⟩, ⟨rfl, rfl, rfl⟩, ⟨rfl, rfl, rfl⟩⟩

/-- C3, amended. For every context with a request whose path has no NUL and whose
`Content-Length` value is not empty and either is not a decimal numeral or denotes a negative
integer, `validate` returns the error `fmt.Errorf("%w: %q", ErrInvalidContentLengthHeader,
value)`: it wraps `ErrInvalidContentLengthHeader`, its message is that error's message, a
colon and a space, and the value as `strconv.Quote` writes it, and the message contains the
value itself when the value is made of printable ASCII characters other than the double quote
and the backslash. If the context is not yet completed it is closed, and an attached sink
receives the status, that message, and a flush when it is a flusher; if the context is
already completed nothing changes. -/
theorem validate_bad_length_rejects (env : Env) (fc : frankenPHPContext) (r : Request)
    (hreq : fc.request = some r) (hnul : Char.ofNat 0 ∉ r.path.data)
    (hne : r.header.Get "Content-Length" ≠ "")
    (hbad : integerValue (r.header.Get "Content-Length") = none ∨
      ∃ n, integerValue (r.header.Get "Content-Length") = some n ∧ n < 0) :
    ∃ e : GoError,
      e = .wrapError (env.ErrInvalidContentLengthHeader.message ++ ": " ++
          Quote env.printTable (r.header.Get "Content-Length"))
        (.rejected env.ErrInvalidContentLengthHeader) ∧
      errorsAs e = some env.ErrInvalidContentLengthHeader ∧
      ((∀ c ∈ (r.header.Get "Content-Length").data, plainChar c = true) →
        stringsContains e.Error (r.header.Get "Content-Length") = true) ∧
      (fc.isDone = false → fc.done = .openChan →
        validate env fc = .ok ({ fc with
          responseWriter := fc.responseWriter.map (fun rw => { rw with
            calls := rw.calls ++ ([.WriteHeader env.ErrInvalidContentLengthHeader.status,
              .Write e.Error] ++ (if rw.flusher then [SinkCall.Flush] else [])) })
          done := .closedChan, isDone := true }, some e)) ∧
      (fc.isDone = true → validate env fc = .ok (fc, some e)) := by
  have hbad2 : ∀ n, integerValue (r.header.Get "Content-Length") = some n → n < 0 := by
    intro n hn
    rcases hbad with h | ⟨m, hm, hlt⟩
    · rw [h] at hn; cases hn
    · rw [hm] at hn; cases hn; exact hlt
  refine ⟨fmtErrorf_w_q env.printTable (.rejected env.ErrInvalidContentLengthHeader)
    (r.header.Get "Content-Length"), rfl, rfl, ?_, ?_, ?_⟩
  · intro hplain
    exact fmtErrorf_w_q_contains _ _ _ hplain
  · intro h hch
    rw [validate_of_bad_length env fc r hreq hnul hne hbad2,
      rejectAndReturn_of_open fc (fmtErrorf_w_q env.printTable
        (.rejected env.ErrInvalidContentLengthHeader) (r.header.Get "Content-Length"))
        env.ErrInvalidContentLengthHeader h hch rfl]
    simp [writeRejection_eq]
  · intro h
    rw [validate_of_bad_length env fc r hreq hnul hne hbad2]
    exact rejectAndReturn_of_done fc _ h

/-- C3, witness: a fresh context with a flushing sink and the header value `-1`. -/
theorem validate_bad_length_rejects_witness :
    (sampleContext "/" "-1" true).request = some (sampleRequest "/" "-1") ∧
    Char.ofNat 0 ∉ (sampleRequest "/" "-1").path.data ∧
    (sampleRequest "/" "-1").header.Get "Content-Length" ≠ "" ∧
    integerValue ((sampleRequest "/" "-1").header.Get "Content-Length") = some (-1) ∧
    ∃ e : GoError,
      e = .wrapError (env64.ErrInvalidContentLengthHeader.message ++ ": " ++
          Quote env64.printTable ((sampleRequest "/" "-1").header.Get "Content-Length"))
        (.rejected env64.ErrInvalidContentLengthHeader) ∧
      errorsAs e = some env64.ErrInvalidContentLengthHeader ∧
      ((∀ c ∈ ((sampleRequest "/" "-1").header.Get "Content-Length").data,
          plainChar c = true) →
        stringsContains e.Error ((sampleRequest "/" "-1").header.Get "Content-Length")
          = true) ∧
      ((sampleContext "/" "-1" true).isDone = false →
        (sampleContext "/" "-1" true).done = .openChan →
        validate env64 (sampleContext "/" "-1" true) =
          .ok ({ sampleContext "/" "-1" true with
            responseWriter := (sampleContext "/" "-1" true).responseWriter.map
              (fun rw => { rw with
                calls := rw.calls ++
                  ([.WriteHeader env64.ErrInvalidContentLengthHeader.status,
                    .Write e.Error] ++ (if rw.flusher then [SinkCall.Flush] else [])) })
            done := .closedChan, isDone := true }, some e)) ∧
      ((sampleContext "/" "-1" true).isDone = true →
        validate env64 (sampleContext "/" "-1" true) =
          .ok (sampleContext "/" "-1" true, some e)) :=
  ⟨rfl, by decide, by decide, rfl,
    validate_bad_length_rejects env64 _ _ rfl (by decide) (by decide)
      (Or.inr ⟨-1, rfl, by decide⟩)⟩

/-! ## The claims on `closeContext` and `reject` -/

/-- C4. The method `closeContext` is idempotent: on a context that is already done it
returns without a panic and changes nothing, so the channel is not closed again; two calls
in a row give what one call gives; and on a context that is not done, whose channel is
open, it closes the channel and sets `isDone`. -/
theorem closeContext_idempotent (fc : frankenPHPContext) :
    (fc.isDone = true → closeContext fc = .ok fc) ∧
    (closeContext fc).bind closeContext = closeContext fc ∧
    (fc.isDone = false → fc.done = .openChan →
      closeContext fc = .ok { fc with done := .closedChan, isDone := true }) := by
  refine ⟨closeContext_of_done fc, ?_, closeContext_of_open fc⟩
  cases hd : fc.isDone with
  | true => simp [closeContext_of_done fc hd, Except.bind]
  | false =>
    cases hch : fc.done <;> simp [closeContext, hd, hch, close, Except.bind]

/-- C4, witness: closing a fresh context, and closing the closed context again. -/
theorem closeContext_idempotent_witness :
    closeContext (doneContext "/" "" false) = .ok (doneContext "/" "" false) ∧
    (closeContext (sampleContext "/" "" false)).bind closeContext =
      closeContext (sampleContext "/" "" false) ∧
    closeContext (sampleContext "/" "" false) = .ok (doneContext "/" "" false) :=
  ⟨(closeContext_idempotent (doneContext "/" "" false)).1 rfl,
    (closeContext_idempotent (sampleContext "/" "" false)).2.1,
    (closeContext_idempotent (sampleContext "/" "" false)).2.2 rfl rfl⟩

/-- C5, counterexample. On a context that is already completed `reject` returns normally
for an error that does not classify as rejected: the `isDone` guard comes before the check
that panics. -/
theorem reject_on_done_context_ignores_error :
    errorsAs (.errorString "boom") = none ∧
    (doneContext "/" "" true).isDone = true ∧
    reject (doneContext "/" "" true) (.errorString "boom") = .ok (doneContext "/" "" true) :=
  ⟨rfl, rfl, rfl⟩

/-- C5, amended. For every context that is not yet completed and every error that does not
classify as rejected, `reject` panics with the text "only instance of ErrRejected can be
passed to reject"; on a context that is already completed `reject` returns at its first
line, before it looks at the error, and changes nothing. -/
theorem reject_not_rejected_panics (fc : frankenPHPContext) (err : GoError)
    (hnot : errorsAs err = none) :
    (fc.isDone = false →
      reject fc err = .error "only instance of ErrRejected can be passed to reject") ∧
    (fc.isDone = true → reject fc err = .ok fc) :=
  ⟨fun h => reject_of_not_rejected fc err h hnot, reject_of_done fc err⟩

/-- C5, witness: a plain error on a fresh context. -/
theorem reject_not_rejected_panics_witness :
    errorsAs (.errorString "boom") = none ∧
    reject (sampleContext "/" "" true) (.errorString "boom") =
      .error "only instance of ErrRejected can be passed to reject" :=
  ⟨rfl, (reject_not_rejected_panics (sampleContext "/" "" true) (.errorString "boom") rfl).1
    rfl⟩

/-- C6, counterexample. For the error `validate` builds for a bad `Content-Length`, which
wraps `ErrInvalidContentLengthHeader` with extra text, the bytes written are the text of the
wrapping error and not the message of the rejected error it wraps. -/
theorem reject_writes_wrapper_text :
    errorsAs (fmtErrorf_w_q env64.printTable (.rejected env64.ErrInvalidContentLengthHeader)
      "abc") = some env64.ErrInvalidContentLengthHeader ∧
    reject (sampleContext "/" "abc" false)
        (fmtErrorf_w_q env64.printTable (.rejected env64.ErrInvalidContentLengthHeader) "abc") =
      .ok { doneContext "/" "abc" false with
        responseWriter := some { flusher := false, calls := [.WriteHeader 400,
          .Write ("invalid Content-Length header: " ++ Quote env64.printTable "abc")] } } ∧
    "invalid Content-Length header: " ++ Quote env64.printTable "abc" ≠
      env64.ErrInvalidContentLengthHeader.message :=
  ⟨rfl, rfl, by decide⟩

/-- C6, amended. For every context that is not yet completed and every error `err` that
classifies as rejected, `re` being the `ErrRejected` found on its chain: with a sink attached
`reject` makes on it, in this order, `WriteHeader` with the status of `re`, one `Write` whose
bytes are the text `err.Error()` of the error passed in (the message of `re` when `err` is
that `ErrRejected` itself, the whole text of the wrapper when `err` wraps it), and then
`Flush` exactly when the sink is a flusher; with no sink attached nothing is written. In
both cases the context is closed. -/
theorem reject_writes_status_and_text (fc : frankenPHPContext) (err : GoError)
    (re : ErrRejected) (hopen : fc.isDone = false) (hch : fc.done = .openChan)
    (hre : errorsAs err = some re) :
    (∀ rw, fc.responseWriter = some rw →
      reject fc err = .ok { fc with
        responseWriter := some { rw with calls := rw.calls ++
          ([.WriteHeader re.status, .Write err.Error] ++
            (if rw.flusher then [SinkCall.Flush] else [])) }
        done := .closedChan, isDone := true }) ∧
    (fc.responseWriter = none →
      reject fc err = .ok { fc with done := .closedChan, isDone := true }) ∧
    (err = .rejected re → err.Error = re.message) := by
  refine ⟨?_, ?_, ?_⟩
  · intro rw hrw
    rw [reject_of_open fc err re hopen hch hre, hrw]
    simp [writeRejection_eq]
  · intro hrw
    rw [reject_of_open fc err re hopen hch hre]
    simp [hrw]
  · intro h
    rw [h]
    rfl

/-- C6, witness: a bare `ErrRejected` on a fresh context with a flushing sink. -/
theorem reject_writes_status_and_text_witness :
    reject (sampleContext "/" "" true) (.rejected ⟨"maximum request handling time exceeded",
        503⟩) =
      .ok { doneContext "/" "" true with
        responseWriter := some { flusher := true, calls := [.WriteHeader 503,
          .Write "maximum request handling time exceeded", .Flush] } } :=
  (reject_writes_status_and_text (sampleContext "/" "" true)
    (.rejected ⟨"maximum request handling time exceeded", 503⟩)
    ⟨"maximum request handling time exceeded", 503⟩ rfl rfl rfl).1
    { flusher := true, calls := [] } rfl

/-- C7. On a context that is already completed `reject` with a rejected error returns the
context as it was: no field changes, the sink receives no call, the channel is untouched.
On a context that is not yet completed, whenever `reject` with a rejected error returns,
the context is closed (`isDone` set, channel closed), and it does return when the channel is
open. -/
theorem reject_noop_when_done_else_closes (fc : frankenPHPContext) (err : GoError)
    (re : ErrRejected) (hre : errorsAs err = some re) :
    (fc.isDone = true → reject fc err = .ok fc) ∧
    (fc.isDone = false → ∀ fc1, reject fc err = .ok fc1 →
      fc1.isDone = true ∧ fc1.done = .closedChan) ∧
    (fc.isDone = false → fc.done = .openChan →
      ∃ fc1, reject fc err = .ok fc1 ∧ fc1.isDone = true ∧ fc1.done = .closedChan) := by
  refine ⟨reject_of_done fc err, ?_, ?_⟩
  · intro h fc1 hok
    cases hrw : fc.responseWriter with
    | none =>
      simp only [reject, h, hre, hrw, Bool.false_eq_true, if_false] at hok
      obtain ⟨_, h2⟩ := closeContext_ok_closed _ _ h hok
      rw [h2]
      exact ⟨rfl, rfl⟩
    | some rw =>
      simp only [reject, h, hre, hrw, Bool.false_eq_true, if_false] at hok
      obtain ⟨_, h2⟩ := closeContext_ok_closed _ fc1 rfl hok
      rw [h2]
      exact ⟨rfl, rfl⟩
  · intro h hch
    exact ⟨_, reject_of_open fc err re h hch hre, rfl, rfl⟩

/-- C7, witness: a rejected error on a completed context and on a fresh one. -/
theorem reject_noop_when_done_else_closes_witness :
    reject (doneContext "/" "" true) (.rejected ⟨"invalid request path", 400⟩) =
      .ok (doneContext "/" "" true) ∧
    ∃ fc1, reject (sampleContext "/" "" true) (.rejected ⟨"invalid request path", 400⟩) =
      .ok fc1 ∧ fc1.isDone = true ∧ fc1.done = .closedChan :=
  ⟨(reject_noop_when_done_else_closes (doneContext "/" "" true)
      (.rejected ⟨"invalid request path", 400⟩) ⟨"invalid request path", 400⟩ rfl).1 rfl,
    (reject_noop_when_done_else_closes (sampleContext "/" "" true)
      (.rejected ⟨"invalid request path", 400⟩) ⟨"invalid request path", 400⟩ rfl).2.2
      rfl rfl⟩

/-- C9, counterexample. On a context that is already completed `validate` returns a
non-nil error for a negative `Content-Length`, and that call wrote nothing to the attached
sink and changed nothing: the context it returns is the one it was given, the sink with no
call. -/
theorem validate_error_on_done_context_writes_nothing :
    validate env64 (doneContext "/" "-5" true) =
      .ok (doneContext "/" "-5" true, some (fmtErrorf_w_q env64.printTable
        (.rejected env64.ErrInvalidContentLengthHeader) "-5")) ∧
    (doneContext "/" "-5" true).responseWriter = some { flusher := true, calls := [] } :=
  ⟨rfl, rfl⟩

/-- C9, amended. Whenever `validate` returns a non-nil error `e` on a context that was not
yet completed, that same call rejected the context: `e` classifies as rejected, an attached
sink received `WriteHeader` with the status of the rejected error, `Write` with the text of
`e`, and `Flush` when it is a flusher, and the context was closed (channel closed, `isDone`
set), every other field left as it was. On a context that was already completed the call
that returns the error changes nothing. -/
theorem validate_error_means_rejected (env : Env) (fc fc1 : frankenPHPContext) (e : GoError)
    (h : validate env fc = .ok (fc1, some e)) :
    (fc.isDone = false → ∃ re, errorsAs e = some re ∧ fc.done = .openChan ∧
      fc1 = { fc with
        responseWriter := fc.responseWriter.map (fun rw => { rw with
          calls := rw.calls ++ ([.WriteHeader re.status, .Write e.Error] ++
            (if rw.flusher then [SinkCall.Flush] else [])) })
        done := .closedChan, isDone := true }) ∧
    (fc.isDone = true → fc1 = fc) := by
  obtain ⟨r, hreq⟩ := validate_request_of_ok env fc _ h
  rcases validate_shape env fc r hreq with hacc | ⟨e1, re, hre, hrej⟩
  · rw [hacc] at h
    simp at h
  · rw [hrej] at h
    obtain ⟨hok, he⟩ := rejectAndReturn_ok fc fc1 e1 _ h
    have he1 : e1 = e := (Option.some.inj he).symm
    subst he1
    constructor
    · intro hd
      obtain ⟨hch, hfc1⟩ := reject_ok_of_not_done fc fc1 e1 re hd hre hok
      refine ⟨re, hre, hch, ?_⟩
      rw [hfc1]
      simp [writeRejection_eq]
    · intro hd
      rw [reject_of_done fc e1 hd] at hok
      exact (Except.ok.inj hok).symm

/-- C9, witness: the error returned for the header value `abc` on a fresh context. -/
theorem validate_error_means_rejected_witness :
    validate env64 (sampleContext "/" "abc" true) =
      .ok ({ doneContext "/" "abc" true with
        responseWriter := some { flusher := true, calls := [.WriteHeader 400,
          .Write ("invalid Content-Length header: " ++ Quote env64.printTable "abc"),
          .Flush] } },
        some (fmtErrorf_w_q env64.printTable
          (.rejected env64.ErrInvalidContentLengthHeader) "abc")) ∧
    ∃ re, errorsAs (fmtErrorf_w_q env64.printTable
        (.rejected env64.ErrInvalidContentLengthHeader) "abc") = some re ∧
      (sampleContext "/" "abc" true).done = .openChan ∧
      ({ doneContext "/" "abc" true with
        responseWriter := some { flusher := true, calls := [.WriteHeader 400,
          .Write ("invalid Content-Length header: " ++ Quote env64.printTable "abc"),
          .Flush] } } : frankenPHPContext) =
      { sampleContext "/" "abc" true with
        responseWriter := (sampleContext "/" "abc" true).responseWriter.map
          (fun rw => { rw with
            calls := rw.calls ++ ([.WriteHeader re.status,
              .Write (fmtErrorf_w_q env64.printTable
                (.rejected env64.ErrInvalidContentLengthHeader) "abc").Error] ++
              (if rw.flusher then [SinkCall.Flush] else [])) })
        done := .closedChan, isDone := true } :=
  ⟨rfl, (validate_error_means_rejected env64 (sampleContext "/" "abc" true) _ _ rfl).1 rfl⟩

/-! ## Exactly-once completion -/

/-- One call from a context whose guard and channel agree. Either the call returns, keeps
the request, and leaves guard and channel as they were or closes an open channel and sets
the guard; or the call is `validate` on a context without a request, which dereferences a
nil pointer before it does anything. -/
theorem step_spec (env : Env) (fc : frankenPHPContext) (c : Call)
    (hinv : (fc.isDone = false ∧ fc.done = .openChan) ∨
      (fc.isDone = true ∧ fc.done = .closedChan))
    (hwf : c.wellFormed = true) :
    (∃ fc1, step env fc c = .ok fc1 ∧ fc1.request = fc.request ∧
      ((fc1.isDone = fc.isDone ∧ fc1.done = fc.done) ∨
        (fc.done = .openChan ∧ fc1.isDone = true ∧ fc1.done = .closedChan))) ∨
    (step env fc c = .error "invalid memory address or nil pointer dereference" ∧
      fc.request = none ∧ c = .validate) := by
  have hrej : ∀ e re, errorsAs e = some re →
      ∃ fc1, reject fc e = .ok fc1 ∧ fc1.request = fc.request ∧
        ((fc1.isDone = fc.isDone ∧ fc1.done = fc.done) ∨
          (fc.done = .openChan ∧ fc1.isDone = true ∧ fc1.done = .closedChan)) := by
    intro e re hre
    rcases hinv with ⟨hd, hch⟩ | ⟨hd, _⟩
    · exact ⟨_, reject_of_open fc e re hd hch hre, rfl, Or.inr ⟨hch, rfl, rfl⟩⟩
    · exact ⟨fc, reject_of_done fc e hd, rfl, Or.inl ⟨rfl, rfl⟩⟩
  cases c with
  | closeContext =>
    left
    rcases hinv with ⟨hd, hch⟩ | ⟨hd, _⟩
    · exact ⟨_, closeContext_of_open fc hd hch, rfl, Or.inr ⟨hch, rfl, rfl⟩⟩
    · exact ⟨fc, closeContext_of_done fc hd, rfl, Or.inl ⟨rfl, rfl⟩⟩
  | reject err =>
    left
    cases hre : errorsAs err with
    | none => simp [Call.wellFormed, hre] at hwf
    | some re => exact hrej err re hre
  | validate =>
    cases hr : fc.request with
    | none =>
      right
      exact ⟨by simp [step, validate, hr], rfl, rfl⟩
    | some r =>
      left
      rcases validate_shape env fc r hr with hacc | ⟨e, re, hre, hval⟩
      · exact ⟨fc, by simp [step, hacc], hr, Or.inl ⟨rfl, rfl⟩⟩
      · obtain ⟨fc1, hok, h1, h2⟩ := hrej e re hre
        refine ⟨fc1, ?_, h1.trans hr, h2⟩
        simp [step, hval, rejectAndReturn, hok]

/-- Along any run from a context whose guard and channel agree: the run goes through all
calls, or stops at a `validate` on a context without a request; guard and channel agree
after every call made; the channel changes state at most once and only when it was open at
the start; and a closed channel stays closed. -/
theorem runCalls_spec (env : Env) (cs : List Call) :
    ∀ fc : frankenPHPContext,
      ((fc.isDone = false ∧ fc.done = .openChan) ∨
        (fc.isDone = true ∧ fc.done = .closedChan)) →
      (∀ c ∈ cs, c.wellFormed = true) →
      ∃ states p, runCalls env fc cs = (states, p) ∧
        ((p = none ∧ states.length = cs.length) ∨
          (p = some "invalid memory address or nil pointer dereference" ∧
            fc.request = none ∧ Call.validate ∈ cs)) ∧
        (∀ s ∈ states, (s.isDone = false ∧ s.done = .openChan) ∨
          (s.isDone = true ∧ s.done = .closedChan)) ∧
        closeCount fc states ≤ (if fc.done = .openChan then 1 else 0) ∧
        (fc.done = .closedChan → ∀ s ∈ states, s.done = .closedChan) ∧
        List.Pairwise (fun a b => a.done = .closedChan → b.done = .closedChan) states := by
  induction cs with
  | nil =>
    intro fc _ _
    exact ⟨[], none, rfl, Or.inl ⟨rfl, rfl⟩, by simp, by simp [closeCount], by simp,
      List.Pairwise.nil⟩
  | cons c cs ih =>
    intro fc hinv hwf
    rcases step_spec env fc c hinv (hwf c (List.mem_cons_self _ _)) with
      ⟨fc1, hstep, hr1, hcase⟩ | ⟨hstep, hnone, hc⟩
    · have hinv1 : (fc1.isDone = false ∧ fc1.done = .openChan) ∨
          (fc1.isDone = true ∧ fc1.done = .closedChan) := by
        rcases hcase with ⟨h1, h2⟩ | ⟨_, h1, h2⟩
        · rw [h1, h2]; exact hinv
        · exact Or.inr ⟨h1, h2⟩
      obtain ⟨rest, p, hrun, hend, hall, hcount, hclosed, hpw⟩ :=
        ih fc1 hinv1 (fun d hd => hwf d (List.mem_cons_of_mem _ hd))
      refine ⟨fc1 :: rest, p, by simp [runCalls, hstep, hrun], ?_, ?_, ?_, ?_, ?_⟩
      · rcases hend with ⟨hp, hlen⟩ | ⟨hp, hreq, hmem⟩
        · exact Or.inl ⟨hp, by simp [hlen]⟩
        · exact Or.inr ⟨hp, hr1 ▸ hreq, List.mem_cons_of_mem _ hmem⟩
      · intro s hs
        rcases List.mem_cons.1 hs with h | h
        · rw [h]; exact hinv1
        · exact hall s h
      · simp only [closeCount]
        rcases hcase with ⟨_, h2⟩ | ⟨h0, _, h2⟩
        · rw [h2] at hcount
          simp only [h2, if_true, zero_add]
          exact hcount
        · rw [h2] at hcount
          simp only [h0, h2] at hcount ⊢
          simp at hcount ⊢
          exact hcount
      · intro hc s hs
        have h1 : fc1.done = .closedChan := by
          rcases hcase with ⟨_, h2⟩ | ⟨h0, _, _⟩
          · rw [h2]; exact hc
          · rw [hc] at h0; cases h0
        rcases List.mem_cons.1 hs with h | h
        · rw [h]; exact h1
        · exact hclosed h1 s h
      · exact List.Pairwise.cons (fun s hs h1 => hclosed h1 s hs) hpw
    · refine ⟨[], some "invalid memory address or nil pointer dereference",
        by simp [runCalls, hstep], Or.inr ⟨rfl, hnone, by simp [hc]⟩, by simp,
        by simp [closeCount], by simp, List.Pairwise.nil⟩

/-- C8. Exactly-once completion: from a context as `newFrankenPHPContext` makes it (guard
false, channel open), along every finite sequence of `closeContext`, `reject` with rejected
errors, and `validate` calls, no call closes a channel that is already closed: the run goes
through every call without a panic, unless a `validate` meets a context that has no request
and dereferences a nil pointer. The channel changes state at most once; after every call
made `isDone` is true exactly when the channel is closed; and once the channel is closed it
is closed after every later call. -/
theorem completion_exactly_once (env : Env) (fc : frankenPHPContext) (cs : List Call)
    (hnew : fc.isDone = false) (hch : fc.done = .openChan)
    (hwf : ∀ c ∈ cs, c.wellFormed = true) :
    ∃ states p, runCalls env fc cs = (states, p) ∧
      ((p = none ∧ states.length = cs.length) ∨
        (p = some "invalid memory address or nil pointer dereference" ∧
          fc.request = none ∧ Call.validate ∈ cs)) ∧
      closeCount fc states ≤ 1 ∧
      (∀ s ∈ states, (s.isDone = true ↔ s.done = .closedChan)) ∧
      List.Pairwise (fun a b => a.done = .closedChan → b.done = .closedChan)
        (fc :: states) := by
  obtain ⟨states, p, hrun, hend, hall, hcount, hclosed, hpw⟩ :=
    runCalls_spec env cs fc (Or.inl ⟨hnew, hch⟩) hwf
  refine ⟨states, p, hrun, hend, ?_, ?_, ?_⟩
  · simpa [hch] using hcount
  · intro s hs
    rcases hall s hs with ⟨h1, h2⟩ | ⟨h1, h2⟩
    · simp [h1, h2]
    · simp [h1, h2]
  · exact List.Pairwise.cons (fun s hs h1 => hclosed h1 s hs) hpw

/-- C8, witness: validate, reject, close, validate on a fresh context whose request path
holds NUL and whose sink flushes; the first call closes the channel and no later call
touches the context. -/
theorem completion_exactly_once_witness :
    runCalls env64 (sampleContext NUL "" true)
        [.validate, .reject (.rejected ⟨"maximum request handling time exceeded", 503⟩),
          .closeContext, .validate] =
      ([rejectedContext, rejectedContext, rejectedContext, rejectedContext], none) ∧
    ∃ states p, runCalls env64 (sampleContext NUL "" true)
        [.validate, .reject (.rejected ⟨"maximum request handling time exceeded", 503⟩),
          .closeContext, .validate] = (states, p) ∧
      ((p = none ∧ states.length = 4) ∨
        (p = some "invalid memory address or nil pointer dereference" ∧
          (sampleContext NUL "" true).request = none ∧
          Call.validate ∈ [Call.validate,
            .reject (.rejected ⟨"maximum request handling time exceeded", 503⟩),
            .closeContext, .validate])) ∧
      closeCount (sampleContext NUL "" true) states ≤ 1 ∧
      (∀ s ∈ states, (s.isDone = true ↔ s.done = .closedChan)) ∧
      List.Pairwise (fun a b => a.done = .closedChan → b.done = .closedChan)
        (sampleContext NUL "" true :: states) :=
  ⟨rfl, completion_exactly_once env64 (sampleContext NUL "" true)
    [.validate, .reject (.rejected ⟨"maximum request handling time exceeded", 503⟩),
      .closeContext, .validate] rfl rfl (by decide)⟩

/-! ## The claim on `WithWorkerMaxFailures` -/

/-- C10. The option `WithWorkerMaxFailures n`, applied to any `workerOpt`, returns an error
exactly when `n < -1`; for `n = -1` and for every `n ≥ 0` it returns nil and sets
`maxConsecutiveFailures` to `n`, every other field kept; and when it returns an error the
`workerOpt` is left as it was. -/
theorem WithWorkerMaxFailures_spec (n : Int) (w : workerOpt) :
    ((WithWorkerMaxFailures n w).2 ≠ none ↔ n < -1) ∧
    (n = -1 ∨ 0 ≤ n →
      WithWorkerMaxFailures n w = ({ w with maxConsecutiveFailures := n }, none)) ∧
    (n < -1 →
      WithWorkerMaxFailures n w = (w, some (.errorString
        ("max consecutive failures must be >= -1, got " ++ toString n)))) := by
  refine ⟨?_, ?_, ?_⟩
  · by_cases h : n < -1 <;> simp [WithWorkerMaxFailures, h]
  · intro h
    have : ¬ n < -1 := by omega
    simp [WithWorkerMaxFailures, this]
  · intro h
    simp [WithWorkerMaxFailures, h]

/-- C10, witness: the values -2, -1 and 3 on a sample `workerOpt`. -/
theorem WithWorkerMaxFailures_spec_witness :
    WithWorkerMaxFailures (-1) sampleWorkerOpt =
      ({ sampleWorkerOpt with maxConsecutiveFailures := -1 }, none) ∧
    WithWorkerMaxFailures 3 sampleWorkerOpt =
      ({ sampleWorkerOpt with maxConsecutiveFailures := 3 }, none) ∧
    WithWorkerMaxFailures (-2) sampleWorkerOpt =
      (sampleWorkerOpt, some (.errorString
        ("max consecutive failures must be >= -1, got " ++ toString (-2 : Int)))) :=
  ⟨(WithWorkerMaxFailures_spec (-1) sampleWorkerOpt).2.1 (Or.inl rfl),
    (WithWorkerMaxFailures_spec 3 sampleWorkerOpt).2.1 (Or.inr (by decide)),
    (WithWorkerMaxFailures_spec (-2) sampleWorkerOpt).2.2 (by decide)⟩

/-! ## Lemmas on the worker options -/

/-- No constructor-built worker option changes name, file or thread count. -/
theorem run_keeps_identity (P : StringMap → PreparedEnv) (c : WorkerOptionCall)
    (w : workerOpt) :
    (c.run P w).1.name = w.name ∧ (c.run P w).1.fileName = w.fileName ∧
      (c.run P w).1.num = w.num := by
  cases c with
  | WithWorkerMaxFailures n =>
    by_cases h : n < -1 <;> simp [WorkerOptionCall.run, WithWorkerMaxFailures, h]
  | _ => exact ⟨rfl, rfl, rfl⟩

/-- A constructor-built worker option keeps `maxConsecutiveFailures` at or above -1. -/
theorem run_keeps_bound (P : StringMap → PreparedEnv) (c : WorkerOptionCall) (w : workerOpt)
    (h : -1 ≤ w.maxConsecutiveFailures) : -1 ≤ (c.run P w).1.maxConsecutiveFailures := by
  cases c with
  | WithWorkerMaxFailures n =>
    by_cases hn : n < -1
    · simpa [WorkerOptionCall.run, WithWorkerMaxFailures, hn] using h
    · simp only [WorkerOptionCall.run, WithWorkerMaxFailures, hn, if_false]
      omega
  | _ => exact h

/-- A call other than `WithWorkerMaxFailures` returns nil and keeps
`maxConsecutiveFailures`. -/
theorem run_of_not_maxFailures (P : StringMap → PreparedEnv) (c : WorkerOptionCall)
    (w : workerOpt) (h : c.isMaxFailures = false) :
    (c.run P w).2 = none ∧
      (c.run P w).1.maxConsecutiveFailures = w.maxConsecutiveFailures := by
  cases c with
  | WithWorkerMaxFailures n => simp [WorkerOptionCall.isMaxFailures] at h
  | _ => exact ⟨rfl, rfl⟩

/-- A call that returns nil leaves its own field holding the value given. -/
theorem run_holdsIn (P : StringMap → PreparedEnv) (c : WorkerOptionCall) (w : workerOpt)
    (h : (c.run P w).2 = none) : c.holdsIn P (c.run P w).1 = true := by
  cases c with
  | WithWorkerMaxFailures n =>
    by_cases hn : n < -1
    · simp [WorkerOptionCall.run, WithWorkerMaxFailures, hn] at h
    · simp [WorkerOptionCall.run, WorkerOptionCall.holdsIn, WithWorkerMaxFailures, hn]
  | _ => simp [WorkerOptionCall.run, WorkerOptionCall.holdsIn, WithWorkerEnv,
      WithWorkerWatchMode, WithWorkerOnReady, WithWorkerOnShutdown, WithWorkerOnServerStartup,
      WithWorkerOnServerShutdown, withExtensionWorkers]

/-- A call of another constructor leaves the field of `c` as it was. -/
theorem run_keeps_holdsIn (P : StringMap → PreparedEnv) (c d : WorkerOptionCall)
    (w : workerOpt) (hk : c.sameKind d = false) (h : c.holdsIn P w = true) :
    c.holdsIn P (d.run P w).1 = true := by
  cases d with
  | WithWorkerMaxFailures n =>
    by_cases hn : n < -1
    · simpa [WorkerOptionCall.run, WithWorkerMaxFailures, hn] using h
    · have hr : (WorkerOptionCall.WithWorkerMaxFailures n).run P w =
          ({ w with maxConsecutiveFailures := n }, none) := by
        simp [WorkerOptionCall.run, WithWorkerMaxFailures, hn]
      rw [hr]
      cases c <;> simp_all [WorkerOptionCall.holdsIn, WorkerOptionCall.sameKind]
  | _ =>
    cases c <;>
      simp_all [WorkerOptionCall.run, WorkerOptionCall.holdsIn, WorkerOptionCall.sameKind,
        WithWorkerEnv, WithWorkerWatchMode, WithWorkerOnReady, WithWorkerOnShutdown,
        WithWorkerOnServerStartup, WithWorkerOnServerShutdown, withExtensionWorkers]

theorem applyWorkerOptions_append (pre post : List WorkerOption) :
    ∀ w : workerOpt, applyWorkerOptions (pre ++ post) w =
      match applyWorkerOptions pre w with
      | (w1, some err) => (w1, some err)
      | (w1, none) => applyWorkerOptions post w1 := by
  induction pre with
  | nil => intro w; rfl
  | cons o rest ih =>
    intro w
    simp only [List.cons_append, applyWorkerOptions]
    rcases ho : o w with ⟨w1, _ | err⟩
    · exact ih w1
    · rfl

/-- When the loop goes through, the draft is the options folded over it in order. -/
theorem applyWorkerOptions_ok_foldl (options : List WorkerOption) :
    ∀ w w1 : workerOpt, applyWorkerOptions options w = (w1, none) →
      w1 = options.foldl (fun acc o => (o acc).1) w := by
  induction options with
  | nil => intro w w1 h; simp [applyWorkerOptions] at h; simp [h]
  | cons o rest ih =>
    intro w w1 h
    simp only [applyWorkerOptions] at h
    rcases ho : o w with ⟨w2, _ | err⟩
    · rw [ho] at h
      simp only [List.foldl_cons, ho]
      exact ih w2 w1 h
    · rw [ho] at h
      simp at h

/-- Whatever the loop returns, constructor-built options keep name, file and thread count
of the draft, and keep `maxConsecutiveFailures` at or above -1. -/
theorem applyWorkerOptions_calls (P : StringMap → PreparedEnv) (calls : List WorkerOptionCall) :
    ∀ (w w1 : workerOpt) (e : Option GoError),
      applyWorkerOptions (calls.map (·.run P)) w = (w1, e) →
      (w1.name = w.name ∧ w1.fileName = w.fileName ∧ w1.num = w.num) ∧
      (-1 ≤ w.maxConsecutiveFailures → -1 ≤ w1.maxConsecutiveFailures) := by
  induction calls with
  | nil =>
    intro w w1 e h
    simp only [List.map_nil, applyWorkerOptions, Prod.mk.injEq] at h
    rw [← h.1]
    exact ⟨⟨rfl, rfl, rfl⟩, id⟩
  | cons c rest ih =>
    intro w w1 e h
    simp only [List.map_cons, applyWorkerOptions] at h
    have hid := run_keeps_identity P c w
    have hb := run_keeps_bound P c w
    rcases hc : c.run P w with ⟨w2, _ | err⟩
    · rw [hc] at h hid hb
      obtain ⟨⟨h1, h2, h3⟩, h4⟩ := ih w2 w1 e h
      exact ⟨⟨h1.trans hid.1, h2.trans hid.2.1, h3.trans hid.2.2⟩, fun h0 => h4 (hb h0)⟩
    · rw [hc] at h hid hb
      simp only [Prod.mk.injEq] at h
      rw [← h.1]
      exact ⟨hid, hb⟩

/-- Options other than `WithWorkerMaxFailures` all return nil and keep
`maxConsecutiveFailures`. -/
theorem applyWorkerOptions_no_maxFailures (P : StringMap → PreparedEnv)
    (calls : List WorkerOptionCall) :
    ∀ w : workerOpt, (∀ c ∈ calls, c.isMaxFailures = false) →
      ∃ w1, applyWorkerOptions (calls.map (·.run P)) w = (w1, none) ∧
        w1.maxConsecutiveFailures = w.maxConsecutiveFailures := by
  induction calls with
  | nil => intro w _; exact ⟨w, rfl, rfl⟩
  | cons c rest ih =>
    intro w h
    obtain ⟨h1, h2⟩ := run_of_not_maxFailures P c w (h c (List.mem_cons_self _ _))
    obtain ⟨w1, h3, h4⟩ := ih (c.run P w).1 (fun d hd => h d (List.mem_cons_of_mem _ hd))
    refine ⟨w1, ?_, h4.trans h2⟩
    simp only [List.map_cons, applyWorkerOptions]
    rcases hc : c.run P w with ⟨w2, e⟩
    rw [hc] at h1 h3
    simp only at h1
    subst h1
    exact h3

theorem applyWorkerOptions_append_ok (pre post : List WorkerOption) (w w1 : workerOpt)
    (h : applyWorkerOptions (pre ++ post) w = (w1, none)) :
    ∃ wpre, applyWorkerOptions pre w = (wpre, none) ∧
      applyWorkerOptions post wpre = (w1, none) := by
  rw [applyWorkerOptions_append] at h
  rcases hp : applyWorkerOptions pre w with ⟨wpre, _ | err⟩
  · rw [hp] at h
    exact ⟨wpre, rfl, h⟩
  · rw [hp] at h
    simp at h

/-- Calls of other constructors, all returning nil, leave the field of `c` as it was. -/
theorem applyWorkerOptions_keeps_holdsIn (P : StringMap → PreparedEnv) (c : WorkerOptionCall)
    (post : List WorkerOptionCall) :
    ∀ w w1 : workerOpt, applyWorkerOptions (post.map (·.run P)) w = (w1, none) →
      (∀ d ∈ post, c.sameKind d = false) → c.holdsIn P w = true → c.holdsIn P w1 = true := by
  induction post with
  | nil =>
    intro w w1 h _ hc
    simp only [List.map_nil, applyWorkerOptions, Prod.mk.injEq] at h
    rw [← h.1]
    exact hc
  | cons d rest ih =>
    intro w w1 h hk hc
    simp only [List.map_cons, applyWorkerOptions] at h
    have hd := run_keeps_holdsIn P c d w (hk d (List.mem_cons_self _ _)) hc
    rcases hr : d.run P w with ⟨w2, _ | err⟩
    · rw [hr] at h hd
      exact ih w2 w1 h (fun e he => hk e (List.mem_cons_of_mem _ he)) hd
    · rw [hr] at h
      simp at h

/-- The option of a written-out `WithExtensionWorkers` call is `WithWorkers` on the caller's
options followed by the binding of the handle. -/
theorem WithExtensionWorkers_option (P : StringMap → PreparedEnv) (name fileName : String)
    (numThreads : Int) (calls : List WorkerOptionCall) :
    (OptionCall.WithExtensionWorkers name fileName numThreads calls).run P =
      WithWorkers P name fileName numThreads
        (List.map (WorkerOptionCall.run P) (calls ++ [WorkerOptionCall.withExtensionWorkers
          { name := name, fileName := fileName, num := numThreads }])) := by
  simp only [OptionCall.run, List.map_append, List.map_cons, List.map_nil]
  rfl

/-- What `WithWorkers` with constructor-built options does to a configuration: it leaves
it as it was and returns an error, or returns nil and appends one entry that carries the
name, file and thread count given and has `maxConsecutiveFailures` at or above -1. -/
theorem WithWorkers_calls (P : StringMap → PreparedEnv) (name fileName : String) (num : Int)
    (calls : List WorkerOptionCall) (o : opt) :
    (∃ err, WithWorkers P name fileName num (calls.map (·.run P)) o = (o, some err)) ∨
    (∃ e, WithWorkers P name fileName num (calls.map (·.run P)) o =
        ({ o with workers := o.workers ++ [e] }, none) ∧
      e.name = name ∧ e.fileName = fileName ∧ e.num = num ∧
      -1 ≤ e.maxConsecutiveFailures) := by
  rcases h : applyWorkerOptions (calls.map (·.run P)) (newWorkerOpt P name fileName num) with
    ⟨w1, _ | err⟩
  · right
    obtain ⟨⟨h1, h2, h3⟩, h4⟩ := applyWorkerOptions_calls P calls _ _ _ h
    exact ⟨w1, by simp [WithWorkers, h], h1, h2, h3,
      h4 (by simp [newWorkerOpt, defaultMaxConsecutiveFailures])⟩
  · left
    exact ⟨err, by simp [WithWorkers, h]⟩

/-- Every constructor-built option keeps every entry of the worker list at or above -1. -/
theorem OptionCall_keeps_bound (P : StringMap → PreparedEnv) (c : OptionCall) (o : opt)
    (h : ∀ w ∈ o.workers, -1 ≤ w.maxConsecutiveFailures) :
    ∀ w ∈ (c.run P o).1.workers, -1 ≤ w.maxConsecutiveFailures := by
  have key : ∀ (name fileName : String) (num : Int) (calls : List WorkerOptionCall),
      ∀ w ∈ (WithWorkers P name fileName num (calls.map (·.run P)) o).1.workers,
        -1 ≤ w.maxConsecutiveFailures := by
    intro name fileName num calls w hw
    rcases WithWorkers_calls P name fileName num calls o with ⟨err, he⟩ | ⟨e, he, _, _, _, hb⟩
    · rw [he] at hw
      exact h w hw
    · rw [he] at hw
      rcases List.mem_append.1 hw with h1 | h1
      · exact h w h1
      · rw [List.mem_singleton.1 h1]
        exact hb
  cases c with
  | WithWorkers name fileName num calls => exact key name fileName num calls
  | WithExtensionWorkers name fileName numThreads calls =>
    rw [WithExtensionWorkers_option]
    exact key name fileName numThreads _
  | _ => exact h

/-- Initialization on two options that each register a pool named `name`, or fail, ends
with a returned error. -/
theorem Init_two_same_name (threadsSuffice : opt → Bool) (name : String) (a b : GoOption)
    (ha : ∀ o, (∃ err, a o = (o, some err)) ∨
      (∃ e, a o = ({ o with workers := o.workers ++ [e] }, none) ∧ e.name = name))
    (hb : ∀ o, (∃ err, b o = (o, some err)) ∨
      (∃ e, b o = ({ o with workers := o.workers ++ [e] }, none) ∧ e.name = name)) :
    ∃ err, Init threadsSuffice [a, b] = .failed err := by
  rcases ha zeroOpt with ⟨err, h1⟩ | ⟨e1, h1, hn1⟩
  · exact ⟨err, by simp [Init, applyOptions, h1]⟩
  · obtain ⟨o1, ho1⟩ : ∃ o1 : opt, o1 = { zeroOpt with workers := zeroOpt.workers ++ [e1] } :=
      ⟨_, rfl⟩
    rw [← ho1] at h1
    have hw : o1.workers = [e1] := by rw [ho1]; rfl
    rcases hb o1 with ⟨err, h2⟩ | ⟨e2, h2, hn2⟩
    · exact ⟨err, by simp [Init, applyOptions, h1, h2]⟩
    · refine ⟨.errorString "two workers cannot have the same name", ?_⟩
      simp [Init, applyOptions, h1, h2, hw, hn1, hn2]

/-! ## Lemmas on slices -/

/-- Right after `append(s, x)` the slice returned holds the elements of `s` followed by
`x`, with or without spare capacity. -/
theorem read_appendOption (mem : Memory) (s : OptionSlice) (x : WorkerOption) :
    (appendOption mem s x).1.read (appendOption mem s x).2 = s.read mem ++ [x] := by
  unfold appendOption
  by_cases h : s.len < s.cap
  · simp only [h, if_true, OptionSlice.read, List.range_succ, List.map_append, List.map_cons,
      List.map_nil]
    congr 1
    · apply List.map_congr_left
      intro i hi
      have hi2 := List.mem_range.1 hi
      have : i ≠ s.len := by omega
      simp [this]
  · simp only [h, if_false, OptionSlice.read, List.range_succ, List.map_append, List.map_cons,
      List.map_nil]
    congr 1
    · apply List.map_congr_left
      intro i hi
      have hi2 := List.mem_range.1 hi
      simp [hi2]
    · simp

/-- Each cell after `append(s, x)` holds what it held before, or `x`, or a copy of an
element of `s`. -/
theorem cell_appendOption (mem : Memory) (s : OptionSlice) (x : WorkerOption) (a i : Nat) :
    (appendOption mem s x).2.cell a i = mem.cell a i ∨
    (appendOption mem s x).2.cell a i = x ∨
    ∃ j, j < s.len ∧ (appendOption mem s x).2.cell a i = mem.cell s.array (s.offset + j) := by
  unfold appendOption
  by_cases h : s.len < s.cap
  · simp only [h, if_true]
    by_cases hc : a = s.array ∧ i = s.offset + s.len
    · right; left; simp [hc]
    · left; simp [hc]
  · simp only [h, if_false]
    by_cases ha : a = mem.next
    · by_cases hi : i < s.len
      · right; right; exact ⟨i, hi, by simp [ha, hi]⟩
      · by_cases hi2 : i = s.len
        · right; left; simp [ha, hi2]
        · left; simp [ha, hi, hi2]
    · left; simp [ha]

theorem mem_read (s : OptionSlice) (mem : Memory) (x : WorkerOption) :
    x ∈ s.read mem ↔ ∃ i, i < s.len ∧ mem.cell s.array (s.offset + i) = x := by
  simp [OptionSlice.read]

/-- A list of options that are each built by a constructor is the list of a sequence of
constructor calls. -/
theorem exists_calls_of_built (P : StringMap → PreparedEnv) (l : List WorkerOption)
    (h : ∀ x ∈ l, ∃ c : WorkerOptionCall, x = c.run P) :
    ∃ calls : List WorkerOptionCall, l = calls.map (WorkerOptionCall.run P) := by
  induction l with
  | nil => exact ⟨[], rfl⟩
  | cons x rest ih =>
    obtain ⟨c, hc⟩ := h x (List.mem_cons_self _ _)
    obtain ⟨calls, hcalls⟩ := ih (fun y hy => h y (List.mem_cons_of_mem _ hy))
    exact ⟨c :: calls, by rw [hc, hcalls]; rfl⟩

/-- An `append` of a constructor-built option to a slice of constructor-built options
leaves every slice of constructor-built options one of constructor-built options, whether
or not it shares the array written to. -/
theorem read_built_after_append (P : StringMap → PreparedEnv) (mem : Memory)
    (s t : OptionSlice) (x : WorkerOption)
    (ht : ∀ y ∈ t.read mem, ∃ c : WorkerOptionCall, y = c.run P)
    (hs : ∀ y ∈ s.read mem, ∃ c : WorkerOptionCall, y = c.run P)
    (hx : ∃ c : WorkerOptionCall, x = c.run P) :
    ∀ y ∈ t.read (appendOption mem s x).2, ∃ c : WorkerOptionCall, y = c.run P := by
  intro y hy
  obtain ⟨i, hi, hcell⟩ := (mem_read _ _ _).1 hy
  rcases cell_appendOption mem s x t.array (t.offset + i) with h | h | ⟨j, hj, h⟩
  · exact ht y ((mem_read _ _ _).2 ⟨i, hi, by rw [← hcell, h]⟩)
  · rw [← hcell, h]; exact hx
  · exact hs y ((mem_read _ _ _).2 ⟨j, hj, by rw [← hcell, h]⟩)

/-- Applied in the memory the call leaves, before anything else is written to the array,
the option of `WithExtensionWorkers` is `WithWorkers` on the options the caller's slice held
followed by the binding of the handle returned. -/
theorem WithExtensionWorkers_applied_at_once (P : StringMap → PreparedEnv)
    (name fileName : String) (numThreads : Int) (options : OptionSlice) (mem : Memory) :
    (WithExtensionWorkers P name fileName numThreads options mem).2.1
        (WithExtensionWorkers P name fileName numThreads options mem).2.2 =
      WithWorkers P name fileName numThreads (options.read mem ++
        [withExtensionWorkers (WithExtensionWorkers P name fileName numThreads options mem).1])
    := by
  simp only [WithExtensionWorkers, read_appendOption]

/-- The slice of written-out arguments holds exactly them. -/
theorem read_storeArguments (mem : Memory) (args : List WorkerOption) :
    (storeArguments mem args).1.read (storeArguments mem args).2 = args := by
  simp only [storeArguments, OptionSlice.read]
  apply List.ext_getElem
  · simp
  · intro i h1 h2
    simp [List.getD_eq_getElem?_getD, List.getElem?_eq_getElem h2]

/-- A written-out call `WithExtensionWorkers(name, fileName, n, opts...)`, its option applied
with the new array untouched, does what `OptionCall.run` says. -/
theorem WithExtensionWorkers_written_out (P : StringMap → PreparedEnv) (name fileName : String)
    (numThreads : Int) (calls : List WorkerOptionCall) (mem : Memory) :
    (WithExtensionWorkers P name fileName numThreads
        (storeArguments mem (calls.map (WorkerOptionCall.run P))).1
        (storeArguments mem (calls.map (WorkerOptionCall.run P))).2).2.1
      (WithExtensionWorkers P name fileName numThreads
        (storeArguments mem (calls.map (WorkerOptionCall.run P))).1
        (storeArguments mem (calls.map (WorkerOptionCall.run P))).2).2.2 =
      (OptionCall.WithExtensionWorkers name fileName numThreads calls).run P := by
  rw [WithExtensionWorkers_applied_at_once, read_storeArguments]
  rfl

/-! ## The claims on registration -/

/-- C11. Two extension pools registered under the same name make initialization return an
error, and no pool is started: for every name, every pair of files and thread counts and
all worker options the constructors build. This holds for two calls written with their
options as arguments; and it holds for two calls on any slices of constructor-built options
in any memory, also slices that share an array, so that the second call overwrites the
binding the first one appended. Initialization is the model `Init` above, written from the
spec. -/
theorem Init_fails_on_duplicate_extension_names (P : StringMap → PreparedEnv)
    (threadsSuffice : opt → Bool) (name file1 file2 : String) (n1 n2 : Int)
    (calls1 calls2 : List WorkerOptionCall) :
    ((∃ err, Init threadsSuffice
        [(OptionCall.WithExtensionWorkers name file1 n1 calls1).run P,
          (OptionCall.WithExtensionWorkers name file2 n2 calls2).run P] = .failed err) ∧
      (Init threadsSuffice
        [(OptionCall.WithExtensionWorkers name file1 n1 calls1).run P,
          (OptionCall.WithExtensionWorkers name file2 n2 calls2).run P]).started = []) ∧
    (∀ (mem : Memory) (s1 s2 : OptionSlice),
      s1.read mem = calls1.map (WorkerOptionCall.run P) →
      s2.read (WithExtensionWorkers P name file1 n1 s1 mem).2.2 =
        calls2.map (WorkerOptionCall.run P) →
      (∃ err, Init threadsSuffice
        [(WithExtensionWorkers P name file1 n1 s1 mem).2.1
            (WithExtensionWorkers P name file2 n2 s2
              (WithExtensionWorkers P name file1 n1 s1 mem).2.2).2.2,
          (WithExtensionWorkers P name file2 n2 s2
              (WithExtensionWorkers P name file1 n1 s1 mem).2.2).2.1
            (WithExtensionWorkers P name file2 n2 s2
              (WithExtensionWorkers P name file1 n1 s1 mem).2.2).2.2] = .failed err) ∧
      (Init threadsSuffice
        [(WithExtensionWorkers P name file1 n1 s1 mem).2.1
            (WithExtensionWorkers P name file2 n2 s2
              (WithExtensionWorkers P name file1 n1 s1 mem).2.2).2.2,
          (WithExtensionWorkers P name file2 n2 s2
              (WithExtensionWorkers P name file1 n1 s1 mem).2.2).2.1
            (WithExtensionWorkers P name file2 n2 s2
              (WithExtensionWorkers P name file1 n1 s1 mem).2.2).2.2]).started = []) := by
  have hlist : ∀ (file : String) (n : Int) (calls : List WorkerOptionCall) (o : opt),
      (∃ err, WithWorkers P name file n (calls.map (WorkerOptionCall.run P)) o =
        (o, some err)) ∨
      (∃ e, WithWorkers P name file n (calls.map (WorkerOptionCall.run P)) o =
        ({ o with workers := o.workers ++ [e] }, none) ∧ e.name = name) := by
    intro file n calls o
    rcases WithWorkers_calls P name file n calls o with ⟨err, h⟩ | ⟨e, h, hn, _⟩
    · exact Or.inl ⟨err, h⟩
    · exact Or.inr ⟨e, h, hn⟩
  have hfail : ∀ a b : GoOption, (∃ err, Init threadsSuffice [a, b] = .failed err) →
      (∃ err, Init threadsSuffice [a, b] = .failed err) ∧
        (Init threadsSuffice [a, b]).started = [] := by
    intro a b h
    obtain ⟨err, he⟩ := h
    exact ⟨⟨err, he⟩, by rw [he]; rfl⟩
  constructor
  · apply hfail
    rw [WithExtensionWorkers_option, WithExtensionWorkers_option]
    exact Init_two_same_name threadsSuffice name _ _ (hlist file1 n1 _) (hlist file2 n2 _)
  · intro mem s1 s2 hs1 hs2
    apply hfail
    have hb1 : ∀ y ∈ (appendOption mem s1 (withExtensionWorkers
        { name := name, fileName := file1, num := n1 })).1.read
        (appendOption mem s1 (withExtensionWorkers
          { name := name, fileName := file1, num := n1 })).2,
        ∃ c : WorkerOptionCall, y = c.run P := by
      rw [read_appendOption, hs1]
      intro y hy
      rcases List.mem_append.1 hy with h | h
      · obtain ⟨c, _, hc⟩ := List.mem_map.1 h
        exact ⟨c, hc.symm⟩
      · rw [List.mem_singleton.1 h]
        exact ⟨.withExtensionWorkers { name := name, fileName := file1, num := n1 }, rfl⟩
    have hb2 : ∀ y ∈ s2.read (appendOption mem s1 (withExtensionWorkers
        { name := name, fileName := file1, num := n1 })).2,
        ∃ c : WorkerOptionCall, y = c.run P := by
      intro y hy
      have hs2' : s2.read (appendOption mem s1 (withExtensionWorkers
          { name := name, fileName := file1, num := n1 })).2 =
          calls2.map (WorkerOptionCall.run P) := hs2
      rw [hs2'] at hy
      obtain ⟨c, _, hc⟩ := List.mem_map.1 hy
      exact ⟨c, hc.symm⟩
    obtain ⟨calls1', h1'⟩ := exists_calls_of_built P _
      (read_built_after_append P _ s2 _ (withExtensionWorkers
        { name := name, fileName := file2, num := n2 }) hb1 hb2
        ⟨.withExtensionWorkers { name := name, fileName := file2, num := n2 }, rfl⟩)
    obtain ⟨calls2', h2'⟩ := exists_calls_of_built P
      ((appendOption (appendOption mem s1 (withExtensionWorkers
          { name := name, fileName := file1, num := n1 })).2 s2 (withExtensionWorkers
          { name := name, fileName := file2, num := n2 })).1.read
        (appendOption (appendOption mem s1 (withExtensionWorkers
          { name := name, fileName := file1, num := n1 })).2 s2 (withExtensionWorkers
          { name := name, fileName := file2, num := n2 })).2) (by
        rw [read_appendOption]
        intro y hy
        rcases List.mem_append.1 hy with h | h
        · exact hb2 y h
        · rw [List.mem_singleton.1 h]
          exact ⟨.withExtensionWorkers { name := name, fileName := file2, num := n2 }, rfl⟩)
    have e1 : (WithExtensionWorkers P name file1 n1 s1 mem).2.1
        (WithExtensionWorkers P name file2 n2 s2
          (WithExtensionWorkers P name file1 n1 s1 mem).2.2).2.2 =
        WithWorkers P name file1 n1 (calls1'.map (WorkerOptionCall.run P)) := by
      rw [← h1']
      rfl
    have e2 : (WithExtensionWorkers P name file2 n2 s2
          (WithExtensionWorkers P name file1 n1 s1 mem).2.2).2.1
        (WithExtensionWorkers P name file2 n2 s2
          (WithExtensionWorkers P name file1 n1 s1 mem).2.2).2.2 =
        WithWorkers P name file2 n2 (calls2'.map (WorkerOptionCall.run P)) := by
      rw [← h2']
      rfl
    rw [e1, e2]
    exact Init_two_same_name threadsSuffice name _ _ (hlist file1 n1 _) (hlist file2 n2 _)

/-- C11, witness: the two registrations of the test, written out, and two registrations
on one slice with spare capacity. -/
theorem Init_fails_on_duplicate_extension_names_witness :
    Init (fun _ => true)
        [(OptionCall.WithExtensionWorkers "duplicateWorker" "testdata/worker.php" 1 []).run
            samplePrepareEnv,
          (OptionCall.WithExtensionWorkers "duplicateWorker" "testdata/worker2.php" 1 []).run
            samplePrepareEnv] =
      .failed (.errorString "two workers cannot have the same name") ∧
    ∃ err, Init (fun _ => true)
        [(WithExtensionWorkers samplePrepareEnv "duplicateWorker" "testdata/worker.php" 1
            spareSlice spareMemory).2.1
          (WithExtensionWorkers samplePrepareEnv "duplicateWorker" "testdata/worker2.php" 1
            spareSlice (WithExtensionWorkers samplePrepareEnv "duplicateWorker"
              "testdata/worker.php" 1 spareSlice spareMemory).2.2).2.2,
          (WithExtensionWorkers samplePrepareEnv "duplicateWorker" "testdata/worker2.php" 1
            spareSlice (WithExtensionWorkers samplePrepareEnv "duplicateWorker"
              "testdata/worker.php" 1 spareSlice spareMemory).2.2).2.1
          (WithExtensionWorkers samplePrepareEnv "duplicateWorker" "testdata/worker2.php" 1
            spareSlice (WithExtensionWorkers samplePrepareEnv "duplicateWorker"
              "testdata/worker.php" 1 spareSlice spareMemory).2.2).2.2] = .failed err :=
  ⟨rfl, ((Init_fails_on_duplicate_extension_names samplePrepareEnv (fun _ => true)
    "duplicateWorker" "testdata/worker.php" "testdata/worker2.php" 1 1 [] []).2
    spareMemory spareSlice spareSlice rfl rfl).1⟩
/-- C12. Registration appends and never overwrites. For every configuration `o` and every
`WithWorkers(name, fileName, num, opts...)` whose worker options, built by the constructors
of the package, all return nil, applying it returns nil and gives the old worker list
followed by exactly one new entry that carries `name`, `fileName` and `num`; every entry
registered before keeps its position and content, whatever its name; and every other field
of the configuration is as it was. -/
theorem WithWorkers_appends (P : StringMap → PreparedEnv) (o : opt) (name fileName : String)
    (num : Int) (calls : List WorkerOptionCall) (entry : workerOpt)
    (hok : applyWorkerOptions (calls.map (·.run P)) (newWorkerOpt P name fileName num) =
      (entry, none)) :
    WithWorkers P name fileName num (calls.map (·.run P)) o =
      ({ o with workers := o.workers ++ [entry] }, none) ∧
    (entry.name = name ∧ entry.fileName = fileName ∧ entry.num = num) ∧
    (o.workers ++ [entry]).length = o.workers.length + 1 ∧
    (∀ i, i < o.workers.length → (o.workers ++ [entry])[i]? = o.workers[i]?) ∧
    ((WithWorkers P name fileName num (calls.map (·.run P)) o).1.numThreads = o.numThreads ∧
      (WithWorkers P name fileName num (calls.map (·.run P)) o).1.maxThreads = o.maxThreads ∧
      (WithWorkers P name fileName num (calls.map (·.run P)) o).1.logger = o.logger ∧
      (WithWorkers P name fileName num (calls.map (·.run P)) o).1.metrics = o.metrics ∧
      (WithWorkers P name fileName num (calls.map (·.run P)) o).1.phpIni = o.phpIni ∧
      (WithWorkers P name fileName num (calls.map (·.run P)) o).1.maxWaitTime =
        o.maxWaitTime) := by
  have hw : WithWorkers P name fileName num (calls.map (·.run P)) o =
      ({ o with workers := o.workers ++ [entry] }, none) := by
    simp [WithWorkers, hok]
  obtain ⟨hid, _⟩ := applyWorkerOptions_calls P calls _ _ _ hok
  refine ⟨hw, hid, by simp, ?_, ?_⟩
  · intro i hi
    exact List.getElem?_append_left hi
  · rw [hw]
    exact ⟨rfl, rfl, rfl, rfl, rfl, rfl⟩

/-- C12, witness: a second pool named `w` registered after a first pool of that name. -/
theorem WithWorkers_appends_witness :
    applyWorkerOptions ([WorkerOptionCall.WithWorkerMaxFailures 3].map (·.run samplePrepareEnv))
        (newWorkerOpt samplePrepareEnv "w" "other.php" 2) =
      ({ newWorkerOpt samplePrepareEnv "w" "other.php" 2 with maxConsecutiveFailures := 3 },
        none) ∧
    WithWorkers samplePrepareEnv "w" "other.php" 2
        ([WorkerOptionCall.WithWorkerMaxFailures 3].map (·.run samplePrepareEnv))
        { zeroOpt with workers := [sampleWorkerOpt], numThreads := 8 } =
      ({ zeroOpt with
        workers := [sampleWorkerOpt,
          { newWorkerOpt samplePrepareEnv "w" "other.php" 2 with maxConsecutiveFailures := 3 }]
        numThreads := 8 }, none) :=
  ⟨rfl, (WithWorkers_appends samplePrepareEnv
    { zeroOpt with workers := [sampleWorkerOpt], numThreads := 8 } "w" "other.php" 2
    [.WithWorkerMaxFailures 3] _ rfl).1⟩

/-- C13. Per-pool options are applied left to right and short-circuit. If the options
before `bad` all return nil and `bad` returns an error, `WithWorkers` returns that error and
leaves the configuration as it was, whatever options follow `bad`: none of them is applied
and no entry is appended. If all options return nil, the appended entry is the default
entry with the options folded over it in order; so for constructor-built options, each
field holds the value of the last call that sets it. -/
theorem WithWorkers_short_circuits (P : StringMap → PreparedEnv) (o : opt)
    (name fileName : String) (num : Int) :
    (∀ (pre post : List WorkerOption) (bad : WorkerOption) (wpre wbad : workerOpt)
        (err : GoError),
      applyWorkerOptions pre (newWorkerOpt P name fileName num) = (wpre, none) →
      bad wpre = (wbad, some err) →
      WithWorkers P name fileName num (pre ++ bad :: post) o = (o, some err)) ∧
    (∀ (options : List WorkerOption) (entry : workerOpt),
      applyWorkerOptions options (newWorkerOpt P name fileName num) = (entry, none) →
      WithWorkers P name fileName num options o =
        ({ o with workers := o.workers ++
          [options.foldl (fun acc option => (option acc).1)
            (newWorkerOpt P name fileName num)] }, none)) ∧
    (∀ (pre post : List WorkerOptionCall) (c : WorkerOptionCall) (entry : workerOpt),
      applyWorkerOptions (List.map (WorkerOptionCall.run P) (pre ++ c :: post))
        (newWorkerOpt P name fileName num) = (entry, none) →
      (∀ d ∈ post, c.sameKind d = false) →
      c.holdsIn P entry = true) := by
  refine ⟨?_, ?_, ?_⟩
  · intro pre post bad wpre wbad err hpre hbad
    simp [WithWorkers, applyWorkerOptions_append, hpre, applyWorkerOptions, hbad]
  · intro options entry hok
    rw [← applyWorkerOptions_ok_foldl options _ _ hok]
    simp [WithWorkers, hok]
  · intro pre post c entry hok hk
    rw [List.map_append, List.map_cons] at hok
    obtain ⟨wpre, _, h2⟩ := applyWorkerOptions_append_ok _ _ _ _ hok
    simp only [applyWorkerOptions] at h2
    have hc := run_holdsIn P c wpre
    rcases hr : c.run P wpre with ⟨wc, _ | err⟩
    · rw [hr] at h2 hc
      exact applyWorkerOptions_keeps_holdsIn P c post wc entry h2 hk (hc rfl)
    · rw [hr] at h2
      simp at h2

/-- C13, witness: a failing `WithWorkerMaxFailures(-2)` between two valid options leaves
the configuration as it was; and of two valid `WithWorkerMaxFailures` the last one wins. -/
theorem WithWorkers_short_circuits_witness :
    WithWorkers samplePrepareEnv "w" "worker.php" 1
        ([WithWorkerWatchMode ["a"]] ++ WithWorkerMaxFailures (-2) ::
          [WithWorkerWatchMode ["b"]])
        { zeroOpt with workers := [sampleWorkerOpt] } =
      ({ zeroOpt with workers := [sampleWorkerOpt] }, some (.errorString
        ("max consecutive failures must be >= -1, got " ++ toString (-2 : Int)))) ∧
    WorkerOptionCall.holdsIn samplePrepareEnv (.WithWorkerMaxFailures 9)
      { newWorkerOpt samplePrepareEnv "w" "worker.php" 1 with
        watch := ["a"], maxConsecutiveFailures := 9 } = true :=
  ⟨(WithWorkers_short_circuits samplePrepareEnv { zeroOpt with workers := [sampleWorkerOpt] }
      "w" "worker.php" 1).1 [WithWorkerWatchMode ["a"]] [WithWorkerWatchMode ["b"]]
      (WithWorkerMaxFailures (-2))
      { newWorkerOpt samplePrepareEnv "w" "worker.php" 1 with watch := ["a"] }
      { newWorkerOpt samplePrepareEnv "w" "worker.php" 1 with watch := ["a"] } _ rfl rfl,
    (WithWorkers_short_circuits samplePrepareEnv zeroOpt "w" "worker.php" 1).2.2
      [.WithWorkerMaxFailures 2] [.WithWorkerWatchMode ["a"]] (.WithWorkerMaxFailures 9)
      _ rfl (by decide)⟩

/-- C14. The configuration invariant `maxConsecutiveFailures >= -1`. In every configuration
obtained from the zero-value `opt` by a finite sequence of options the constructors of the
package build, whether every option is applied or the sequence stops at the first error,
every entry of the worker list has `maxConsecutiveFailures >= -1`. And an entry registered
by `WithWorkers` or `WithExtensionWorkers` without a `WithWorkerMaxFailures` among its
options is appended with the default value 6. -/
theorem maxConsecutiveFailures_invariant (P : StringMap → PreparedEnv) :
    (∀ calls : List OptionCall,
      ∀ w ∈ (configAfter (calls.map (·.run P)) zeroOpt).workers,
        -1 ≤ w.maxConsecutiveFailures) ∧
    (∀ calls : List OptionCall,
      ∀ w ∈ (applyOptions (calls.map (·.run P)) zeroOpt).1.workers,
        -1 ≤ w.maxConsecutiveFailures) ∧
    (∀ (o : opt) (name fileName : String) (num : Int) (wcalls : List WorkerOptionCall),
      (∀ c ∈ wcalls, c.isMaxFailures = false) →
      (∃ e, (OptionCall.WithWorkers name fileName num wcalls).run P o =
          ({ o with workers := o.workers ++ [e] }, none) ∧ e.maxConsecutiveFailures = 6) ∧
      (∃ e, (OptionCall.WithExtensionWorkers name fileName num wcalls).run P o =
          ({ o with workers := o.workers ++ [e] }, none) ∧ e.maxConsecutiveFailures = 6)) := by
  refine ⟨?_, ?_, ?_⟩
  · intro calls
    have gen : ∀ (cs : List OptionCall) (o : opt),
        (∀ w ∈ o.workers, -1 ≤ w.maxConsecutiveFailures) →
        ∀ w ∈ (configAfter (cs.map (·.run P)) o).workers, -1 ≤ w.maxConsecutiveFailures := by
      intro cs
      induction cs with
      | nil => intro o h; exact h
      | cons c rest ih =>
        intro o h
        simp only [List.map_cons, configAfter, List.foldl_cons]
        exact ih _ (OptionCall_keeps_bound P c o h)
    exact gen calls zeroOpt (by simp [zeroOpt])
  · intro calls
    have gen : ∀ (cs : List OptionCall) (o : opt),
        (∀ w ∈ o.workers, -1 ≤ w.maxConsecutiveFailures) →
        ∀ w ∈ (applyOptions (cs.map (·.run P)) o).1.workers,
          -1 ≤ w.maxConsecutiveFailures := by
      intro cs
      induction cs with
      | nil => intro o h; exact h
      | cons c rest ih =>
        intro o h
        have hc := OptionCall_keeps_bound P c o h
        simp only [List.map_cons, applyOptions]
        rcases hr : c.run P o with ⟨o1, _ | err⟩
        · rw [hr] at hc
          exact ih o1 hc
        · rw [hr] at hc
          exact hc
    exact gen calls zeroOpt (by simp [zeroOpt])
  · intro o name fileName num wcalls hno
    constructor
    · obtain ⟨w1, h1, h2⟩ :=
        applyWorkerOptions_no_maxFailures P wcalls (newWorkerOpt P name fileName num) hno
      exact ⟨w1, by simp [OptionCall.run, WithWorkers, h1], by
        rw [h2]; rfl⟩
    · have hno2 : ∀ c ∈ wcalls ++ [WorkerOptionCall.withExtensionWorkers
          { name := name, fileName := fileName, num := num }], c.isMaxFailures = false := by
        intro c hc
        rcases List.mem_append.1 hc with h | h
        · exact hno c h
        · rw [List.mem_singleton.1 h]; rfl
      obtain ⟨w1, h1, h2⟩ :=
        applyWorkerOptions_no_maxFailures P _ (newWorkerOpt P name fileName num) hno2
      have h1' : applyWorkerOptions (List.map (WorkerOptionCall.run P)
          (wcalls ++ [WorkerOptionCall.withExtensionWorkers
            { name := name, fileName := fileName, num := num }]))
          (newWorkerOpt P name fileName num) = (w1, none) := h1
      refine ⟨w1, ?_, by rw [h2]; rfl⟩
      rw [WithExtensionWorkers_option]
      simp only [WithWorkers, h1']

/-- C14, witness: a pool registered with hooks only gets the default 6. -/
theorem maxConsecutiveFailures_invariant_witness :
    (OptionCall.WithWorkers "w" "worker.php" 1 [.WithWorkerOnReady (some 7)]).run
        samplePrepareEnv zeroOpt =
      ({ zeroOpt with workers := [{ newWorkerOpt samplePrepareEnv "w" "worker.php" 1 with
        onThreadReady := some 7 }] }, none) ∧
    ∃ e, (OptionCall.WithWorkers "w" "worker.php" 1 [.WithWorkerOnReady (some 7)]).run
        samplePrepareEnv zeroOpt =
      ({ zeroOpt with workers := zeroOpt.workers ++ [e] }, none) ∧
      e.maxConsecutiveFailures = 6 :=
  ⟨rfl, ((maxConsecutiveFailures_invariant samplePrepareEnv).2.2 zeroOpt "w" "worker.php" 1
    [.WithWorkerOnReady (some 7)] (by decide)).1⟩

/-- C15. The defect at a concrete input. A caller holds the slice
`make([]WorkerOption, 0, 1)` and calls `WithExtensionWorkers("a", "a.php", 1, spare...)` and
then `WithExtensionWorkers("b", "b.php", 1, spare...)`. Each call returns a handle that
records its own name, file and thread count. Applied before the second call, the first
option appends the entry of pool `a` bound to the handle of `a`. But `append` wrote that
binding into the caller's array, and the second call writes its own binding into the same
cell: applied after the second call, the first option appends the entry of pool `a` bound to
the handle of `b`, which is not the handle the first call returned. -/
theorem WithExtensionWorkers_shared_slice_rebinds :
    firstCall.1 = { name := "a", fileName := "a.php", num := 1 } ∧
    secondCall.1 = { name := "b", fileName := "b.php", num := 1 } ∧
    firstCall.2.1 firstCall.2.2 zeroOpt =
      ({ zeroOpt with workers := [{ newWorkerOpt samplePrepareEnv "a" "a.php" 1 with
        extensionWorkers := some firstCall.1 }] }, none) ∧
    firstCall.2.1 secondCall.2.2 zeroOpt =
      ({ zeroOpt with workers := [{ newWorkerOpt samplePrepareEnv "a" "a.php" 1 with
        extensionWorkers := some secondCall.1 }] }, none) ∧
    secondCall.2.1 secondCall.2.2 zeroOpt =
      ({ zeroOpt with workers := [{ newWorkerOpt samplePrepareEnv "b" "b.php" 1 with
        extensionWorkers := some secondCall.1 }] }, none) ∧
    secondCall.1 ≠ firstCall.1 :=
  ⟨rfl, rfl, rfl, rfl, rfl, by decide⟩

/-- C20. Each per-pool option other than `WithWorkerMaxFailures` returns nil for every
argument and every `workerOpt`, sets its own field to the value given (for `WithWorkerEnv`
the prepared form of the map) and leaves every other field as it was; none of them changes
`name`, `fileName`, `num` or `maxConsecutiveFailures`. -/
theorem worker_setters_frame (P : StringMap → PreparedEnv) (w : workerOpt) :
    (∀ env, WithWorkerEnv P env w = ({ w with env := P env }, none)) ∧
    (∀ watch, WithWorkerWatchMode watch w = ({ w with watch := watch }, none)) ∧
    (∀ f, WithWorkerOnReady f w = ({ w with onThreadReady := f }, none)) ∧
    (∀ f, WithWorkerOnShutdown f w = ({ w with onThreadShutdown := f }, none)) ∧
    (∀ f, WithWorkerOnServerStartup f w = ({ w with onServerStartup := f }, none)) ∧
    (∀ f, WithWorkerOnServerShutdown f w = ({ w with onServerShutdown := f }, none)) ∧
    (∀ c : WorkerOptionCall, c.isMaxFailures = false →
      (c.run P w).2 = none ∧ (c.run P w).1.name = w.name ∧
      (c.run P w).1.fileName = w.fileName ∧ (c.run P w).1.num = w.num ∧
      (c.run P w).1.maxConsecutiveFailures = w.maxConsecutiveFailures) := by
  refine ⟨fun _ => rfl, fun _ => rfl, fun _ => rfl, fun _ => rfl, fun _ => rfl,
    fun _ => rfl, ?_⟩
  intro c hc
  obtain ⟨h1, h2⟩ := run_of_not_maxFailures P c w hc
  obtain ⟨h3, h4, h5⟩ := run_keeps_identity P c w
  exact ⟨h1, h3, h4, h5, h2⟩

/-- C20, witness: `WithWorkerEnv` on the sample `workerOpt`. -/
theorem worker_setters_frame_witness :
    WithWorkerEnv samplePrepareEnv (some [("APP_ENV", "prod")]) sampleWorkerOpt =
      ({ sampleWorkerOpt with env := [("APP_ENV", "prod")] }, none) ∧
    ((WorkerOptionCall.WithWorkerEnv (some [("APP_ENV", "prod")])).run samplePrepareEnv
        sampleWorkerOpt).2 = none ∧
    ((WorkerOptionCall.WithWorkerEnv (some [("APP_ENV", "prod")])).run samplePrepareEnv
        sampleWorkerOpt).1.maxConsecutiveFailures = 6 :=
  ⟨(worker_setters_frame samplePrepareEnv sampleWorkerOpt).1 _,
    ((worker_setters_frame samplePrepareEnv sampleWorkerOpt).2.2.2.2.2.2
      (.WithWorkerEnv (some [("APP_ENV", "prod")])) rfl).1,
    ((worker_setters_frame samplePrepareEnv sampleWorkerOpt).2.2.2.2.2.2
      (.WithWorkerEnv (some [("APP_ENV", "prod")])) rfl).2.2.2.2⟩

/-! ## The claims on `SendMessage`, `clientHasClosed`, `NewRequestWithContext` -/

/-- C16. The method `SendMessage` builds a fresh context, not completed, bound to the
backing worker of the handle, with `handlerParameters` the message, `responseWriter` the
sink and no request; it hands that context to `handleRequest` of the backing worker, once
(the state of the workers afterwards is the state after that one call) and without running
`validate` on it; and it returns the `handlerReturn` of the context after handling together
with the error `handleRequest` returned. Hence, against a worker whose handler sets the
return value to "received message: " followed by the payload and reports no error,
`SendMessage(p, nil)` returns exactly that text and no error. -/
theorem SendMessage_spec {σ : Type}
    (handleRequest : σ → Option worker → frankenPHPContext →
      σ × frankenPHPContext × Option GoError)
    (g : Globals) (now : Nat) (w : extensionWorkers) (message : GoAny)
    (rw : Option ResponseWriter) (s : σ) :
    (messageContext g now w message rw =
      { newFrankenPHPContext now with
        logger := g.logger, worker := w.internalWorker, responseWriter := rw,
        handlerParameters := message } ∧
      (messageContext g now w message rw).isDone = false ∧
      (messageContext g now w message rw).done = .openChan ∧
      (messageContext g now w message rw).request = none) ∧
    SendMessage handleRequest g now w message rw s =
      ((handleRequest s w.internalWorker (messageContext g now w message rw)).1,
        (handleRequest s w.internalWorker (messageContext g now w message rw)).2.1.handlerReturn,
        (handleRequest s w.internalWorker (messageContext g now w message rw)).2.2) ∧
    (∀ p : String, message = .str p → rw = none →
      (∀ (s0 : σ) (fc : frankenPHPContext), fc.handlerParameters = .str p →
        (handleRequest s0 w.internalWorker fc).2.1.handlerReturn =
          .str ("received message: " ++ p) ∧
        (handleRequest s0 w.internalWorker fc).2.2 = none) →
      (SendMessage handleRequest g now w message rw s).2 =
        (.str ("received message: " ++ p), none)) := by
  refine ⟨⟨rfl, rfl, rfl, rfl⟩, rfl, ?_⟩
  intro p hp _ hecho
  have hpar : (messageContext g now w message rw).handlerParameters = .str p := hp
  obtain ⟨h1, h2⟩ := hecho s (messageContext g now w message rw) hpar
  simp only [SendMessage]
  rw [← h1, ← h2]

/-- C16, witness: the message of the test against the echoing handler; the handler was
called once. -/
theorem SendMessage_spec_witness :
    SendMessage echoHandleRequest sampleGlobals 0 sampleHandle (.str "Hello Workers") none 0 =
      (1, .str "received message: Hello Workers", none) ∧
    (SendMessage echoHandleRequest sampleGlobals 0 sampleHandle (.str "Hello Workers")
      none 0).2 = (.str ("received message: " ++ "Hello Workers"), none) :=
  ⟨rfl, (SendMessage_spec echoHandleRequest sampleGlobals 0 sampleHandle
    (.str "Hello Workers") none 0).2.2 "Hello Workers" rfl rfl (by
      intro s0 fc h
      simp [echoHandleRequest, h])⟩

/-- C17. The method `clientHasClosed` on a context with a request completes at once, with
the answer true exactly when the `Done` channel of the request context is closed, that is,
when the signal has fired; on a context with no request, as `SendMessage` builds it, it
completes with false; in every case it completes with an answer, it never waits, and the
context afterwards is the context before. While the signal has not fired, the same receive
in a `select` without a `default` branch waits, and `clientHasClosed` completes with
false. -/
theorem clientHasClosed_spec (fc : frankenPHPContext) :
    (∀ r, fc.request = some r →
      clientHasClosed fc = .completes (fc, decide (r.ctxDone = .closedChan))) ∧
    (fc.request = none → clientHasClosed fc = .completes (fc, false)) ∧
    (∀ (g : Globals) (now : Nat) (w : extensionWorkers) (message : GoAny)
        (rw : Option ResponseWriter),
      clientHasClosed (messageContext g now w message rw) =
        .completes (messageContext g now w message rw, false)) ∧
    ((∃ answer, clientHasClosed fc = .completes (fc, answer)) ∧
      clientHasClosed fc ≠ .waits) ∧
    (∀ r, fc.request = some r → r.ctxDone ≠ .closedChan →
      selectRecv r.ctxDone (fc, true) = .waits ∧
      clientHasClosed fc = .completes (fc, false)) := by
  have h1 : ∀ r, fc.request = some r →
      clientHasClosed fc = .completes (fc, decide (r.ctxDone = .closedChan)) := by
    intro r hr
    cases hc : r.ctxDone <;> simp [clientHasClosed, hr, hc, selectRecvOrDefault, recv]
  have h2 : fc.request = none → clientHasClosed fc = .completes (fc, false) := by
    intro hr
    simp [clientHasClosed, hr]
  have h3 : ∃ answer, clientHasClosed fc = .completes (fc, answer) := by
    cases hr : fc.request with
    | none => exact ⟨false, h2 hr⟩
    | some r => exact ⟨_, h1 r hr⟩
  refine ⟨h1, h2, fun g now w message rw => rfl, ⟨h3, ?_⟩, ?_⟩
  · obtain ⟨answer, ha⟩ := h3
    rw [ha]
    exact fun h => by cases h
  · intro r hr hopen
    constructor
    · cases hc : r.ctxDone <;> simp_all [selectRecv, recv]
    · rw [h1 r hr]
      simp [hopen]

/-- C17, witness: a request whose signal has fired, one whose signal has not, on which a
bare receive would wait, and a context without a request. -/
theorem clientHasClosed_spec_witness :
    clientHasClosed { newFrankenPHPContext 0 with
        request := some { path := "/", header := [], ctxDone := .closedChan } } =
      .completes ({ newFrankenPHPContext 0 with
        request := some { path := "/", header := [], ctxDone := .closedChan } }, true) ∧
    (selectRecv Chan.openChan (sampleContext "/" "" true, true) = .waits ∧
      clientHasClosed (sampleContext "/" "" true) =
        .completes (sampleContext "/" "" true, false)) ∧
    clientHasClosed (newFrankenPHPContext 0) = .completes (newFrankenPHPContext 0, false) :=
  ⟨(clientHasClosed_spec { newFrankenPHPContext 0 with
      request := some { path := "/", header := [], ctxDone := .closedChan } }).1
      { path := "/", header := [], ctxDone := .closedChan } rfl,
    (clientHasClosed_spec (sampleContext "/" "" true)).2.2.2.2 (sampleRequest "/" "") rfl
      (by decide),
    (clientHasClosed_spec (newFrankenPHPContext 0)).2.1 rfl⟩

theorem applyRequestOptions_append (pre post : List RequestOption) :
    ∀ fc : frankenPHPContext, applyRequestOptions (pre ++ post) fc =
      match applyRequestOptions pre fc with
      | (fc1, some err) => (fc1, some err)
      | (fc1, none) => applyRequestOptions post fc1 := by
  induction pre with
  | nil => intro fc; rfl
  | cons o rest ih =>
    intro fc
    simp only [List.cons_append, applyRequestOptions]
    rcases ho : o fc with ⟨fc1, _ | err⟩
    · exact ih fc1
    · rfl

/-- The document root after defaulting, when one can be determined. -/
theorem resolveDocumentRoot_ok (g : Globals) (fc : frankenPHPContext)
    (h : fc.documentRoot ≠ "" ∨ g.EmbeddedAppPath ≠ "" ∨ ∃ dir, g.Getwd = .ok dir) :
    ∃ root, resolveDocumentRoot g fc = .ok { fc with documentRoot := root } := by
  unfold resolveDocumentRoot
  by_cases h1 : fc.documentRoot = ""
  · by_cases h2 : g.EmbeddedAppPath = ""
    · rcases h with h | h | ⟨dir, h⟩
      · exact absurd h1 h
      · exact absurd h2 h
      · exact ⟨dir, by simp [h1, h2, h]⟩
    · exact ⟨g.EmbeddedAppPath, by simp [h1, h2]⟩
  · exact ⟨fc.documentRoot, by simp [h1]⟩

/-- C18, counterexample. The one request option succeeds and binds the context to a
worker, but it leaves the document root empty, no application is embedded and `os.Getwd`
fails: `NewRequestWithContext` returns that error and no request. -/
theorem NewRequestWithContext_fails_without_working_dir :
    applyRequestOptions [bindSampleWorker]
        (newRequestContext 0 (sampleRequest "/index.php" "")) =
      ({ newFrankenPHPContext 0 with
        request := some (sampleRequest "/index.php" "")
        worker := some { fileName := "worker.php" } }, none) ∧
    NewRequestWithContext globalsNoWorkingDir 0 (sampleRequest "/index.php" "")
        [bindSampleWorker] =
      .error (.errorString "getwd: no such file or directory") :=
  ⟨rfl, rfl⟩

/-- C18, amended. Let the request options all return nil and leave the context `fc1`.
If a document root can be determined (the options set one, or an application is embedded,
or `os.Getwd` succeeds), `NewRequestWithContext` returns the request with a context that is
`fc1` with logger and document root defaulted and, when `fc1` is bound to a worker, with
`scriptFilename` the `fileName` of that worker and no path splitting, so `docURI`,
`pathInfo` and `scriptName` are as the options left them; when `fc1` is bound to no worker,
the context is the result of `splitCgiPath` instead. If no document root can be determined,
it returns the error of `os.Getwd` and no request. And if some option returns an error
after the options before it returned nil, it returns that error and no request, whatever
options follow. -/
theorem NewRequestWithContext_spec (g : Globals) (now : Nat) (r : Request) :
    (∀ (opts : List RequestOption) (fc1 : frankenPHPContext),
      applyRequestOptions opts (newRequestContext now r) =
        (fc1, none) →
      ((fc1.documentRoot ≠ "" ∨ g.EmbeddedAppPath ≠ "" ∨ ∃ dir, g.Getwd = .ok dir) →
        ∃ lg root,
          (∀ w, fc1.worker = some w →
            NewRequestWithContext g now r opts =
              .ok (r, { fc1 with
                logger := lg, documentRoot := root, scriptFilename := w.fileName })) ∧
          (fc1.worker = none →
            NewRequestWithContext g now r opts =
              .ok (r, g.splitCgiPath { fc1 with logger := lg, documentRoot := root }))) ∧
      (∀ err, fc1.documentRoot = "" → g.EmbeddedAppPath = "" → g.Getwd = .error err →
        NewRequestWithContext g now r opts = .error err)) ∧
    (∀ (pre post : List RequestOption) (bad : RequestOption) (fpre fbad : frankenPHPContext)
        (err : GoError),
      applyRequestOptions pre (newRequestContext now r) =
        (fpre, none) →
      bad fpre = (fbad, some err) →
      NewRequestWithContext g now r (pre ++ bad :: post) = .error err) := by
  constructor
  · intro opts fc1 hok
    constructor
    · intro hroot
      have hroot2 : (defaultLogger g fc1).documentRoot ≠ "" ∨
          g.EmbeddedAppPath ≠ "" ∨ ∃ dir, g.Getwd = .ok dir := by
        by_cases hl : fc1.logger = none <;> simpa [defaultLogger, hl] using hroot
      obtain ⟨root, hres⟩ := resolveDocumentRoot_ok g _ hroot2
      refine ⟨(defaultLogger g fc1).logger, root, ?_, ?_⟩
      · intro w hw
        have hw2 : (defaultLogger g fc1).worker = some w := by
          by_cases hl : fc1.logger = none <;> simpa [defaultLogger, hl] using hw
        simp only [NewRequestWithContext, hok, hres, hw2]
        by_cases hl : fc1.logger = none <;> simp [defaultLogger, hl, hw]
      · intro hw
        have hw2 : (defaultLogger g fc1).worker = none := by
          by_cases hl : fc1.logger = none <;> simpa [defaultLogger, hl] using hw
        simp only [NewRequestWithContext, hok, hres, hw2]
        by_cases hl : fc1.logger = none <;> simp [defaultLogger, hl, hw]
    · intro err h1 h2 h3
      have h1' : (defaultLogger g fc1).documentRoot = "" := by
        by_cases hl : fc1.logger = none <;> simpa [defaultLogger, hl] using h1
      simp [NewRequestWithContext, hok, resolveDocumentRoot, h1', h2, h3]
  · intro pre post bad fpre fbad err hpre hbad
    simp [NewRequestWithContext, applyRequestOptions_append, hpre, applyRequestOptions, hbad]

/-- C18, witness: with a working directory, a bound worker gives its file and no path
splitting; no binding gives path splitting; a failing option gives its error. -/
theorem NewRequestWithContext_spec_witness :
    NewRequestWithContext sampleGlobals 0 (sampleRequest "/index.php" "") [bindSampleWorker] =
      .ok (sampleRequest "/index.php" "", { newFrankenPHPContext 0 with
        request := some (sampleRequest "/index.php" "")
        worker := some { fileName := "worker.php" }
        logger := some 1, documentRoot := "/srv", scriptFilename := "worker.php" }) ∧
    NewRequestWithContext sampleGlobals 0 (sampleRequest "/index.php" "") [] =
      .ok (sampleRequest "/index.php" "", { newFrankenPHPContext 0 with
        request := some (sampleRequest "/index.php" "")
        logger := some 1, documentRoot := "/srv", scriptName := "/index.php" }) ∧
    NewRequestWithContext sampleGlobals 0 (sampleRequest "/index.php" "")
        ([bindSampleWorker] ++ failingRequestOption :: [bindSampleWorker]) =
      .error (.errorString "bad option") :=
  ⟨rfl, rfl,
    (NewRequestWithContext_spec sampleGlobals 0 (sampleRequest "/index.php" "")).2
      [bindSampleWorker] [bindSampleWorker] failingRequestOption
      { newFrankenPHPContext 0 with
        request := some (sampleRequest "/index.php" "")
        worker := some { fileName := "worker.php" } }
      { newFrankenPHPContext 0 with
        request := some (sampleRequest "/index.php" "")
        worker := some { fileName := "worker.php" } } _ rfl rfl⟩

/-- C19. The exact acceptance condition of `validate`. On a context with a request,
`validate` returns nil exactly when the URL path holds no NUL and the `Content-Length`
value is empty (or the header absent) or `strconv.Atoi` parses it to a value that is not
negative; when that holds `validate` does return nil; and whenever it returns nil the
context afterwards is the context before, so nothing was written to the sink and `isDone`
and the channel are as they were. -/
theorem validate_accepts_iff (env : Env) (fc : frankenPHPContext) (r : Request)
    (hreq : fc.request = some r) :
    ((∃ fc1, validate env fc = .ok (fc1, none)) ↔
      (Char.ofNat 0 ∉ r.path.data ∧
        (r.header.Get "Content-Length" = "" ∨
          ∃ n, Atoi env.intSize (r.header.Get "Content-Length") = .ok n ∧ 0 ≤ n))) ∧
    ((Char.ofNat 0 ∉ r.path.data ∧
        (r.header.Get "Content-Length" = "" ∨
          ∃ n, Atoi env.intSize (r.header.Get "Content-Length") = .ok n ∧ 0 ≤ n)) →
      validate env fc = .ok (fc, none)) ∧
    (∀ fc1, validate env fc = .ok (fc1, none) → fc1 = fc) := by
  have hno : ∀ (e : GoError) (fc1 : frankenPHPContext),
      rejectAndReturn fc e ≠ .ok (fc1, none) := by
    intro e fc1 h
    have := (rejectAndReturn_ok fc fc1 e none h).2
    cases this
  have hacc : (Char.ofNat 0 ∉ r.path.data ∧
        (r.header.Get "Content-Length" = "" ∨
          ∃ n, Atoi env.intSize (r.header.Get "Content-Length") = .ok n ∧ 0 ≤ n)) →
      validate env fc = .ok (fc, none) := by
    rintro ⟨hnul, hlen⟩
    rw [validate_of_no_nul env fc r hreq hnul]
    rcases hlen with h | ⟨n, hn, h0⟩
    · simp [h]
    · have : ¬ n < 0 := by omega
      simp [hn, this]
  have hrev : ∀ fc1, validate env fc = .ok (fc1, none) →
      fc1 = fc ∧ (Char.ofNat 0 ∉ r.path.data ∧
        (r.header.Get "Content-Length" = "" ∨
          ∃ n, Atoi env.intSize (r.header.Get "Content-Length") = .ok n ∧ 0 ≤ n)) := by
    intro fc1 h
    by_cases hnul : Char.ofNat 0 ∈ r.path.data
    · rw [validate_of_nul env fc r hreq hnul] at h
      exact absurd h (hno _ _)
    · rw [validate_of_no_nul env fc r hreq hnul] at h
      by_cases hne : r.header.Get "Content-Length" = ""
      · simp only [hne, ne_eq, not_true_eq_false, if_false, Except.ok.injEq,
          Prod.mk.injEq] at h
        exact ⟨h.1.symm, hnul, Or.inl hne⟩
      · rw [if_pos hne] at h
        cases ha : Atoi env.intSize (r.header.Get "Content-Length") with
        | error k =>
          rw [ha] at h
          exact absurd h (hno _ _)
        | ok n =>
          rw [ha] at h
          by_cases hn : n < 0
          · simp only [hn, if_true] at h
            exact absurd h (hno _ _)
          · simp only [hn, if_false, Except.ok.injEq, Prod.mk.injEq] at h
            exact ⟨h.1.symm, hnul, Or.inr ⟨n, rfl, by omega⟩⟩
  refine ⟨⟨?_, fun h => ⟨fc, hacc h⟩⟩, hacc, fun fc1 h => (hrev fc1 h).1⟩
  rintro ⟨fc1, h⟩
  exact (hrev fc1 h).2

/-- C19, witness: a request with a valid length on a context with a flushing sink. -/
theorem validate_accepts_iff_witness :
    (sampleContext "/" "42" true).request = some (sampleRequest "/" "42") ∧
    Atoi 64 ((sampleRequest "/" "42").header.Get "Content-Length") = .ok 42 ∧
    validate env64 (sampleContext "/" "42" true) = .ok (sampleContext "/" "42" true, none) :=
  ⟨rfl, rfl, (validate_accepts_iff env64 (sampleContext "/" "42" true)
    (sampleRequest "/" "42") rfl).2.1 ⟨by decide, Or.inr ⟨42, rfl, by decide⟩⟩⟩

end FrankenPHP
